import Mathlib

/-!
Verification development for the couic firewall control plane.

The Rust sources are shallowly embedded: Rust `HashMap`s become association
lists (`List (k × v)`); `&mut self` methods become pure state-passing
functions; fallible operations return `Except`; `u64`/`usize` values become
`Nat` (no arithmetic in the modelled code can overflow: the only increment,
the tag registry's `next_id`, is guarded by an explicit `u64::MAX` check
which is modelled verbatim).  Kernel (eBPF) map syscalls are external to the
repository, so each kernel call site takes the syscall outcome as an explicit
`Except String Unit` argument (`.ok ()` = the syscall succeeded, `.error m` =
it failed with message `m`); a failed syscall leaves the kernel map unchanged.
-/

/-! ## Association lists: the model of `std::collections::HashMap`

`lookupA` is `get`, `insertA` is `insert` (replace the value when the key is
present, append the pair otherwise), `updateA` is `get_mut` followed by an
in-place mutation of the value, `eraseA` is `remove`.  A `HashMap`'s state is
its key-value set; the list order is the (arbitrary) iteration order. -/

def lookupA {α β : Type} [DecidableEq α] : List (α × β) → α → Option β
  | [], _ => none
  | p :: rest, k => if p.1 = k then some p.2 else lookupA rest k

def updateA {α β : Type} [DecidableEq α] (l : List (α × β)) (k : α) (f : β → β) : List (α × β) :=
  l.map (fun p => if p.1 = k then (p.1, f p.2) else p)

def insertA {α β : Type} [DecidableEq α] (l : List (α × β)) (k : α) (v : β) : List (α × β) :=
  if (lookupA l k).isSome then updateA l k (fun _ => v) else l ++ [(k, v)]

def eraseA {α β : Type} [DecidableEq α] : List (α × β) → α → List (α × β)
  | [], _ => []
  | p :: rest, k => if p.1 = k then eraseA rest k else p :: eraseA rest k

def keysOf {α β : Type} (l : List (α × β)) : List α := l.map Prod.fst

def keysNodup {α β : Type} (l : List (α × β)) : Prop := (keysOf l).Nodup

theorem lookupA_nil {α β : Type} [DecidableEq α] (k : α) :
    lookupA ([] : List (α × β)) k = none := rfl

theorem lookupA_cons {α β : Type} [DecidableEq α] (p : α × β) (l : List (α × β)) (k : α) :
    lookupA (p :: l) k = if p.1 = k then some p.2 else lookupA l k := rfl

theorem lookupA_eq_none_iff {α β : Type} [DecidableEq α] (l : List (α × β)) (k : α) :
    lookupA l k = none ↔ k ∉ keysOf l := by
  induction l with
  | nil => simp [lookupA, keysOf]
  | cons p rest ih =>
    obtain ⟨a, b⟩ := p
    have hk : keysOf ((a, b) :: rest) = a :: keysOf rest := rfl
    rw [lookupA_cons, hk, List.mem_cons]
    by_cases h : a = k
    · subst h
      simp
    · simp only [h, if_false]
      rw [ih]
      constructor
      · intro hn hor
        rcases hor with h1 | h2
        · exact h h1.symm
        · exact hn h2
      · intro hn h2
        exact hn (Or.inr h2)

theorem lookupA_isSome_iff {α β : Type} [DecidableEq α] (l : List (α × β)) (k : α) :
    (lookupA l k).isSome = true ↔ k ∈ keysOf l := by
  rcases h : lookupA l k with _ | v
  · simpa [h] using (lookupA_eq_none_iff l k).mp h
  · simp only [Option.isSome_some, true_iff]
    by_contra hk
    rw [(lookupA_eq_none_iff l k).mpr hk] at h
    cases h

theorem lookupA_mem {α β : Type} [DecidableEq α] {l : List (α × β)} {k : α} {v : β}
    (h : lookupA l k = some v) : (k, v) ∈ l := by
  induction l with
  | nil => cases h
  | cons p rest ih =>
    rw [lookupA_cons] at h
    by_cases hp : p.1 = k
    · rw [if_pos hp] at h
      injection h with h2
      obtain ⟨a, b⟩ := p
      cases hp
      cases h2
      exact List.mem_cons_self _ _
    · rw [if_neg hp] at h
      exact List.mem_cons_of_mem _ (ih h)

theorem lookupA_updateA {α β : Type} [DecidableEq α] (l : List (α × β)) (k k' : α) (f : β → β) :
    lookupA (updateA l k f) k' =
      if k = k' then (lookupA l k').map f else lookupA l k' := by
  induction l with
  | nil => simp [updateA, lookupA]
  | cons p rest ih =>
    obtain ⟨a, b⟩ := p
    by_cases hk : k = k'
    · subst hk
      by_cases ha : a = k
      · simpa [updateA, lookupA, ha] using ih
      · simpa [updateA, lookupA, ha] using ih
    · by_cases ha : a = k <;> by_cases ha' : a = k'
      · exact absurd (ha.symm.trans ha') hk
      · simp only [updateA, List.map_cons, if_pos ha, lookupA_cons] at ih ⊢
        simpa [ha, ha', hk] using ih
      · simp only [updateA, List.map_cons, if_neg ha, lookupA_cons] at ih ⊢
        simpa [ha', hk] using ih
      · simp only [updateA, List.map_cons, if_neg ha, lookupA_cons] at ih ⊢
        simpa [ha', hk] using ih

theorem lookupA_eraseA {α β : Type} [DecidableEq α] (l : List (α × β)) (k k' : α) :
    lookupA (eraseA l k) k' = if k = k' then none else lookupA l k' := by
  induction l with
  | nil => simp [eraseA, lookupA]
  | cons p rest ih =>
    obtain ⟨a, b⟩ := p
    by_cases hk : k = k'
    · subst hk
      by_cases ha : a = k
      · simpa [eraseA, lookupA, ha] using ih
      · simpa [eraseA, lookupA, ha] using ih
    · by_cases ha : a = k <;> by_cases ha' : a = k'
      · exact absurd (ha.symm.trans ha') hk
      · simpa [eraseA, lookupA, ha, ha', hk] using ih
      · simp [eraseA, lookupA, ha, ha', hk, Ne.symm hk]
      · simpa [eraseA, lookupA, ha, ha', hk] using ih

theorem lookupA_append {α β : Type} [DecidableEq α] (l l' : List (α × β)) (k : α) :
    lookupA (l ++ l') k =
      match lookupA l k with
      | some v => some v
      | none => lookupA l' k := by
  induction l with
  | nil => simp [lookupA]
  | cons p rest ih =>
    by_cases hp : p.1 = k
    · simp [lookupA, hp]
    · simpa [lookupA, hp] using ih

theorem lookupA_insertA_self {α β : Type} [DecidableEq α] (l : List (α × β)) (k : α) (v : β) :
    lookupA (insertA l k v) k = some v := by
  unfold insertA
  rcases h : lookupA l k with _ | w
  · simp only [h, Option.isSome_none, Bool.false_eq_true, if_false]
    rw [lookupA_append]
    simp [h, lookupA]
  · simp only [h, Option.isSome_some, if_true]
    rw [lookupA_updateA]
    simp [h]

theorem lookupA_insertA_ne {α β : Type} [DecidableEq α] (l : List (α × β)) (k k' : α) (v : β)
    (h : k ≠ k') : lookupA (insertA l k v) k' = lookupA l k' := by
  unfold insertA
  rcases hl : lookupA l k with _ | w
  · simp only [hl, Option.isSome_none, Bool.false_eq_true, if_false]
    rw [lookupA_append]
    rcases h' : lookupA l k' with _ | u
    · simp [lookupA, h]
    · simp
  · simp only [hl, Option.isSome_some, if_true]
    rw [lookupA_updateA]
    simp [h]

theorem eraseA_of_not_mem {α β : Type} [DecidableEq α] (l : List (α × β)) (k : α)
    (h : lookupA l k = none) : eraseA l k = l := by
  induction l with
  | nil => rfl
  | cons p rest ih =>
    rw [lookupA_cons] at h
    by_cases hp : p.1 = k
    · simp [hp] at h
    · simp only [eraseA, hp, if_false]
      rw [ih (by simpa [hp] using h)]

theorem eraseA_append {α β : Type} [DecidableEq α] (l l' : List (α × β)) (k : α) :
    eraseA (l ++ l') k = eraseA l k ++ eraseA l' k := by
  induction l with
  | nil => rfl
  | cons p rest ih =>
    by_cases hp : p.1 = k <;> simp [eraseA, hp, ih]

theorem updateA_updateA {α β : Type} [DecidableEq α] (l : List (α × β)) (k : α) (f g : β → β) :
    updateA (updateA l k f) k g = updateA l k (fun x => g (f x)) := by
  induction l with
  | nil => rfl
  | cons p rest ih =>
    simp only [updateA, List.map_cons] at ih ⊢
    by_cases hp : p.1 = k <;> simp [hp, ih]

theorem updateA_id {α β : Type} [DecidableEq α] (l : List (α × β)) (k : α) :
    updateA l k (fun x => x) = l := by
  induction l with
  | nil => rfl
  | cons p rest ih =>
    obtain ⟨a, b⟩ := p
    simp only [updateA, List.map_cons] at ih ⊢
    by_cases hp : a = k
    · subst hp
      simp [ih]
    · simp [hp, ih]

theorem keysOf_updateA {α β : Type} [DecidableEq α] (l : List (α × β)) (k : α) (f : β → β) :
    keysOf (updateA l k f) = keysOf l := by
  induction l with
  | nil => rfl
  | cons p rest ih =>
    simp only [updateA, keysOf, List.map_cons] at ih ⊢
    by_cases hp : p.1 = k <;> simp [hp, ih]

theorem keysNodup_updateA {α β : Type} [DecidableEq α] (l : List (α × β)) (k : α) (f : β → β)
    (h : keysNodup l) : keysNodup (updateA l k f) := by
  unfold keysNodup
  rw [keysOf_updateA]
  exact h

theorem keysNodup_insertA {α β : Type} [DecidableEq α] (l : List (α × β)) (k : α) (v : β)
    (h : keysNodup l) : keysNodup (insertA l k v) := by
  unfold insertA
  rcases hl : lookupA l k with _ | w
  · simp only [hl, Option.isSome_none, Bool.false_eq_true, if_false]
    show (keysOf (l ++ [(k, v)])).Nodup
    have hkeys : keysOf (l ++ [(k, v)]) = keysOf l ++ [k] := by
      simp [keysOf]
    rw [hkeys, List.nodup_append]
    refine ⟨h, List.nodup_singleton _, ?_⟩
    intro x hx hy
    simp only [List.mem_singleton] at hy
    exact ((lookupA_eq_none_iff l k).mp hl) (hy ▸ hx)
  · simp only [hl, Option.isSome_some, if_true]
    exact keysNodup_updateA l k (fun _ => v) h

theorem eraseA_sublist {α β : Type} [DecidableEq α] (l : List (α × β)) (k : α) :
    (eraseA l k).Sublist l := by
  induction l with
  | nil => simp [eraseA]
  | cons p rest ih =>
    by_cases hp : p.1 = k
    · simp only [eraseA, hp, if_true]
      exact ih.cons _
    · simp only [eraseA, hp, if_false]
      exact ih.cons₂ _

theorem keysNodup_eraseA {α β : Type} [DecidableEq α] (l : List (α × β)) (k : α)
    (h : keysNodup l) : keysNodup (eraseA l k) := by
  unfold keysNodup keysOf at h ⊢
  exact h.sublist ((eraseA_sublist l k).map Prod.fst)

/-! ## Tag registry (src/couic/src/firewall/tag.rs)

`TagRegistryInner` is the lock-protected inner table; `acquire`, `release`
and `get_tag` are its methods with `&mut self` turned into state passing.
The lock-poisoning error can not arise in the sequential model, so `release`
and `get_tag` are total; `acquire` keeps its two genuine error cases
(`InvalidId`, `IdExhausted`).  `u64::MAX` is `UMAX`. -/

structure TagEntry where
  name : String
  refcount : Nat
deriving DecidableEq, Repr

structure TagRegistryInner where
  next_id : Nat
  by_id : List (Nat × TagEntry)
  by_name : List (String × Nat)
deriving DecidableEq, Repr

inductive TagRegistryError where
  | InvalidId
  | IdExhausted
deriving DecidableEq, Repr

def UMAX : Nat := 2 ^ 64 - 1

def newRegistry : TagRegistryInner :=
  { next_id := 1, by_id := [], by_name := [] }

def acquire (tag : String) (r : TagRegistryInner) :
    Except TagRegistryError (Nat × TagRegistryInner) :=
  match lookupA r.by_name tag with
  | some id =>
    match lookupA r.by_id id with
    | none => .error .InvalidId
    | some _ =>
      .ok (id, { r with by_id := updateA r.by_id id (fun e => { e with refcount := e.refcount + 1 }) })
  | none =>
    let id := r.next_id
    if id = UMAX then .error .IdExhausted
    else
      .ok (id, { next_id := r.next_id + 1,
                 by_id := insertA r.by_id id { name := tag, refcount := 1 },
                 by_name := insertA r.by_name tag id })

def release (id : Nat) (r : TagRegistryInner) : TagRegistryInner :=
  match lookupA r.by_id id with
  | none => r
  | some entry =>
    if entry.refcount - 1 = 0 then
      { r with by_id := eraseA r.by_id id, by_name := eraseA r.by_name entry.name }
    else
      { r with by_id := updateA r.by_id id (fun e => { e with refcount := e.refcount - 1 }) }

def get_tag (r : TagRegistryInner) (id : Nat) : Option String :=
  (lookupA r.by_id id).map (fun e => e.name)

def refcountOf (r : TagRegistryInner) (id : Nat) : Nat :=
  match lookupA r.by_id id with
  | some e => e.refcount
  | none => 0

/-- Well-formedness of the registry table: `by_name` and `by_id` are mutually
inverse, refcounts of live entries are at least 1, and live ids are below the
allocation counter. -/
def RegWF (r : TagRegistryInner) : Prop :=
  (∀ n i, lookupA r.by_name n = some i ↔
    ∃ e, lookupA r.by_id i = some e ∧ e.name = n) ∧
  (∀ i e, lookupA r.by_id i = some e → 1 ≤ e.refcount ∧ i < r.next_id)

/-- Registry states reachable through the public operations. -/
inductive RegReachable : TagRegistryInner → Prop where
  | init : RegReachable newRegistry
  | step_acquire (t : String) (id : Nat) (r r' : TagRegistryInner) :
      RegReachable r → acquire t r = .ok (id, r') → RegReachable r'
  | step_release (i : Nat) (r : TagRegistryInner) :
      RegReachable r → RegReachable (release i r)

theorem regWF_new : RegWF newRegistry := by
  constructor
  · intro n i
    simp [newRegistry, lookupA]
  · intro i e h
    simp [newRegistry, lookupA] at h

/-! ### Step lemmas for the registry operations -/

theorem acquire_ok_facts (t : String) (r : TagRegistryInner) (id : Nat) (r' : TagRegistryInner)
    (hwf : RegWF r) (h : acquire t r = .ok (id, r')) :
    (∀ i, get_tag r' i = if i = id then some t else get_tag r i) ∧
    (∀ i, refcountOf r' i = if i = id then refcountOf r id + 1 else refcountOf r i) ∧
    r.next_id ≤ r'.next_id ∧ id < r'.next_id ∧
    (lookupA r.by_name t = none → r'.next_id = r.next_id + 1 ∧ id = r.next_id) ∧
    ((lookupA r.by_name t).isSome → r'.next_id = r.next_id) := by
  unfold acquire at h
  rcases hn : lookupA r.by_name t with _ | id0
  · rw [hn] at h
    simp only at h
    by_cases hmax : r.next_id = UMAX
    · rw [if_pos hmax] at h
      cases h
    · rw [if_neg hmax] at h
      injection h with h'
      injection h' with hid hr
      subst hid
      subst hr
      have hfresh : lookupA r.by_id r.next_id = none := by
        rcases hfid : lookupA r.by_id r.next_id with _ | e
        · rfl
        · exact absurd (hwf.2 _ _ hfid).2 (lt_irrefl _)
      refine ⟨?_, ?_, ?_, ?_, ?_, ?_⟩
      · intro i
        by_cases hi : i = r.next_id
        · subst hi
          simp [get_tag, lookupA_insertA_self]
        · simp [get_tag, hi, lookupA_insertA_ne _ _ _ _ (fun he => hi he.symm)]
      · intro i
        by_cases hi : i = r.next_id
        · subst hi
          simp [refcountOf, lookupA_insertA_self, hfresh]
        · simp [refcountOf, hi, lookupA_insertA_ne _ _ _ _ (fun he => hi he.symm)]
      · exact Nat.le_succ _
      · exact Nat.lt_succ_self _
      · intro _
        exact ⟨rfl, rfl⟩
      · intro hs
        simp at hs
  · rw [hn] at h
    simp only at h
    rcases hi0 : lookupA r.by_id id0 with _ | e
    · rw [hi0] at h
      cases h
    · rw [hi0] at h
      injection h with h'
      injection h' with hid hr
      subst hid
      subst hr
      have hname : e.name = t := by
        obtain ⟨e', he', hn'⟩ := (hwf.1 t id0).mp hn
        rw [hi0] at he'
        injection he' with he'
        rw [he']
        exact hn'
      refine ⟨?_, ?_, le_refl _, (hwf.2 _ _ hi0).2, ?_, fun _ => rfl⟩
      · intro i
        by_cases hi : i = id0
        · subst hi
          simp only [get_tag, lookupA_updateA, if_pos rfl, hi0, Option.map_map, if_pos]
          simp [hname]
        · simp [get_tag, lookupA_updateA, Ne.symm hi, hi]
      · intro i
        by_cases hi : i = id0
        · subst hi
          simp [refcountOf, lookupA_updateA, hi0]
        · simp [refcountOf, lookupA_updateA, Ne.symm hi, hi]
      · intro hnone
        simp [hn] at hnone

theorem release_next_id (i : Nat) (r : TagRegistryInner) :
    (release i r).next_id = r.next_id := by
  unfold release
  rcases h : lookupA r.by_id i with _ | e
  · rfl
  · by_cases hc : e.refcount - 1 = 0 <;> simp [hc]

theorem get_tag_release_ne (i j : Nat) (r : TagRegistryInner) (hj : j ≠ i) :
    get_tag (release i r) j = get_tag r j := by
  unfold release
  rcases h : lookupA r.by_id i with _ | e
  · rfl
  · by_cases hc : e.refcount - 1 = 0
    · simp [hc, get_tag, lookupA_eraseA, Ne.symm hj]
    · simp [hc, get_tag, lookupA_updateA, Ne.symm hj, hj]

theorem get_tag_release_self (i : Nat) (r : TagRegistryInner) (h2 : 2 ≤ refcountOf r i) :
    get_tag (release i r) i = get_tag r i := by
  unfold release
  rcases h : lookupA r.by_id i with _ | e
  · rfl
  · have hrc : refcountOf r i = e.refcount := by simp [refcountOf, h]
    by_cases hc : e.refcount - 1 = 0
    · omega
    · simp [hc, get_tag, lookupA_updateA, h]

theorem refcountOf_release (i j : Nat) (r : TagRegistryInner) :
    refcountOf (release i r) j = if j = i then refcountOf r i - 1 else refcountOf r j := by
  unfold release
  rcases h : lookupA r.by_id i with _ | e
  · by_cases hj : j = i
    · subst hj
      simp [refcountOf, h]
    · simp [hj]
  · have hrc : refcountOf r i = e.refcount := by simp [refcountOf, h]
    by_cases hc : e.refcount - 1 = 0
    · by_cases hj : j = i
      · subst hj
        simp [hc, refcountOf, lookupA_eraseA, h, hrc]
      · simp [hc, refcountOf, lookupA_eraseA, Ne.symm hj, hj]
    · by_cases hj : j = i
      · subst hj
        simp [hc, refcountOf, lookupA_updateA, h, hrc]
      · simp [hc, refcountOf, lookupA_updateA, Ne.symm hj, hj]

theorem regWF_acquire (t : String) (r : TagRegistryInner) (id : Nat) (r' : TagRegistryInner)
    (hwf : RegWF r) (h : acquire t r = .ok (id, r')) : RegWF r' := by
  unfold acquire at h
  rcases hn : lookupA r.by_name t with _ | id0
  · rw [hn] at h
    simp only at h
    by_cases hmax : r.next_id = UMAX
    · rw [if_pos hmax] at h
      cases h
    · rw [if_neg hmax] at h
      injection h with h'
      injection h' with hid hr
      subst hid
      subst hr
      have hfresh : lookupA r.by_id r.next_id = none := by
        rcases hfid : lookupA r.by_id r.next_id with _ | e
        · rfl
        · exact absurd (hwf.2 _ _ hfid).2 (lt_irrefl _)
      constructor
      · intro n i
        by_cases hnt : n = t
        · subst hnt
          rw [lookupA_insertA_self]
          constructor
          · intro hsome
            injection hsome with hsome
            subst hsome
            exact ⟨_, lookupA_insertA_self _ _ _, rfl⟩
          · intro ⟨e, he, hen⟩
            by_cases hi : i = r.next_id
            · subst hi
              rfl
            · rw [lookupA_insertA_ne _ _ _ _ (fun q => hi q.symm)] at he
              obtain ⟨hr1, hr2⟩ := hwf.2 _ _ he
              have := (hwf.1 n i).mpr ⟨e, he, hen⟩
              rw [hn] at this
              cases this
        · rw [lookupA_insertA_ne _ _ _ _ (fun q => hnt q.symm)]
          constructor
          · intro hsome
            obtain ⟨e, he, hen⟩ := (hwf.1 n i).mp hsome
            have hine : i ≠ r.next_id := by
              intro hq
              rw [hq, hfresh] at he
              cases he
            exact ⟨e, by rw [lookupA_insertA_ne _ _ _ _ (fun q => hine q.symm)]; exact he, hen⟩
          · intro ⟨e, he, hen⟩
            by_cases hi : i = r.next_id
            · subst hi
              rw [lookupA_insertA_self] at he
              injection he with he
              rw [← he] at hen
              have hnt2 : t = n := hen
              exact absurd hnt2.symm hnt
            · rw [lookupA_insertA_ne _ _ _ _ (fun q => hi q.symm)] at he
              exact (hwf.1 n i).mpr ⟨e, he, hen⟩
      · intro i e he
        by_cases hi : i = r.next_id
        · subst hi
          rw [lookupA_insertA_self] at he
          injection he with he
          rw [← he]
          exact ⟨le_refl _, Nat.lt_succ_self _⟩
        · rw [lookupA_insertA_ne _ _ _ _ (fun q => hi q.symm)] at he
          obtain ⟨h1, h2⟩ := hwf.2 _ _ he
          exact ⟨h1, Nat.lt_succ_of_lt h2⟩
  · rw [hn] at h
    simp only at h
    rcases hi0 : lookupA r.by_id id0 with _ | e
    · rw [hi0] at h
      cases h
    · rw [hi0] at h
      injection h with h'
      injection h' with hid hr
      subst hid
      subst hr
      constructor
      · intro n i
        rw [show ({ r with by_id := updateA r.by_id id0 fun e => { e with refcount := e.refcount + 1 } } : TagRegistryInner).by_name = r.by_name from rfl]
        rw [hwf.1 n i]
        constructor
        · intro ⟨e', he', hen⟩
          by_cases hi : i = id0
          · subst hi
            refine ⟨{ e' with refcount := e'.refcount + 1 }, ?_, hen⟩
            simp [lookupA_updateA, he']
          · refine ⟨e', ?_, hen⟩
            simp [lookupA_updateA, Ne.symm hi, hi, he']
        · intro ⟨e', he', hen⟩
          by_cases hi : i = id0
          · subst hi
            simp only [lookupA_updateA, if_pos rfl, hi0, Option.map_some] at he'
            injection he' with he'
            refine ⟨e, hi0, ?_⟩
            rw [← he'] at hen
            exact hen
          · simp only [lookupA_updateA, Ne.symm hi, if_false, if_neg] at he'
            exact ⟨e', he', hen⟩
      · intro i e' he'
        by_cases hi : i = id0
        · subst hi
          simp only [lookupA_updateA, if_pos rfl, hi0, Option.map_some] at he'
          injection he' with he'
          rw [← he']
          exact ⟨Nat.le_succ_of_le (hwf.2 _ _ hi0).1, (hwf.2 _ _ hi0).2⟩
        · simp only [lookupA_updateA, Ne.symm hi, if_false, if_neg] at he'
          exact hwf.2 _ _ he'

theorem regWF_release (i : Nat) (r : TagRegistryInner) (hwf : RegWF r) :
    RegWF (release i r) := by
  unfold release
  rcases h : lookupA r.by_id i with _ | e
  · exact hwf
  · by_cases hc : e.refcount - 1 = 0
    · simp only [hc, if_true]
      constructor
      · intro n j
        rw [show ({ r with by_id := eraseA r.by_id i, by_name := eraseA r.by_name e.name } : TagRegistryInner).by_name = eraseA r.by_name e.name from rfl]
        rw [show ({ r with by_id := eraseA r.by_id i, by_name := eraseA r.by_name e.name } : TagRegistryInner).by_id = eraseA r.by_id i from rfl]
        rw [lookupA_eraseA]
        by_cases hne : e.name = n
        · rw [if_pos hne]
          constructor
          · intro hq
            cases hq
          · intro ⟨e', he', hn'⟩
            rw [lookupA_eraseA] at he'
            by_cases hij : i = j
            · rw [if_pos hij] at he'
              cases he'
            · rw [if_neg hij] at he'
              have h1 := (hwf.1 n j).mpr ⟨e', he', hn'⟩
              have h2 := (hwf.1 n i).mpr ⟨e, h, hne⟩
              rw [h1] at h2
              injection h2 with h2
              exact absurd h2.symm hij
        · rw [if_neg hne]
          constructor
          · intro hq
            obtain ⟨e', he', hn'⟩ := (hwf.1 n j).mp hq
            have hij : i ≠ j := by
              intro hij
              rw [← hij, h] at he'
              injection he' with he'
              rw [← he'] at hn'
              exact hne hn'
            exact ⟨e', by rw [lookupA_eraseA, if_neg hij]; exact he', hn'⟩
          · intro ⟨e', he', hn'⟩
            rw [lookupA_eraseA] at he'
            by_cases hij : i = j
            · rw [if_pos hij] at he'
              cases he'
            · rw [if_neg hij] at he'
              exact (hwf.1 n j).mpr ⟨e', he', hn'⟩
      · intro j e' he'
        rw [show ({ r with by_id := eraseA r.by_id i, by_name := eraseA r.by_name e.name } : TagRegistryInner).by_id = eraseA r.by_id i from rfl] at he'
        rw [lookupA_eraseA] at he'
        by_cases hij : i = j
        · rw [if_pos hij] at he'
          cases he'
        · rw [if_neg hij] at he'
          exact hwf.2 _ _ he'
    · simp only [hc, if_false]
      constructor
      · intro n j
        rw [show ({ r with by_id := updateA r.by_id i fun e => { e with refcount := e.refcount - 1 } } : TagRegistryInner).by_name = r.by_name from rfl]
        rw [hwf.1 n j]
        constructor
        · intro ⟨e', he', hn'⟩
          by_cases hij : i = j
          · subst hij
            rw [h] at he'
            injection he' with he'
            refine ⟨{ e with refcount := e.refcount - 1 }, ?_, by rw [← he'] at hn'; exact hn'⟩
            simp [lookupA_updateA, h]
          · refine ⟨e', ?_, hn'⟩
            simp [lookupA_updateA, hij, he']
        · intro ⟨e', he', hn'⟩
          simp only [lookupA_updateA] at he'
          by_cases hij : i = j
          · rw [if_pos hij] at he'
            rw [← hij, h] at he'
            simp only [Option.map_some'] at he'
            injection he' with he'
            refine ⟨e, by rw [← hij]; exact h, ?_⟩
            rw [← he'] at hn'
            exact hn'
          · rw [if_neg hij] at he'
            exact ⟨e', he', hn'⟩
      · intro j e' he'
        simp only [show ({ r with by_id := updateA r.by_id i fun e => { e with refcount := e.refcount - 1 } } : TagRegistryInner).by_id = updateA r.by_id i fun e => { e with refcount := e.refcount - 1 } from rfl] at he'
        rw [lookupA_updateA] at he'
        by_cases hij : i = j
        · rw [if_pos hij] at he'
          rw [← hij, h] at he'
          simp only [Option.map_some'] at he'
          injection he' with he'
          rw [← he']
          refine ⟨show 1 ≤ e.refcount - 1 by omega, ?_⟩
          rw [← hij]
          exact (hwf.2 _ _ h).2
        · rw [if_neg hij] at he'
          exact hwf.2 _ _ he'

theorem release_of_lookup_none {i : Nat} {r : TagRegistryInner}
    (h : lookupA r.by_id i = none) : release i r = r := by
  unfold release
  rw [h]

theorem release_of_lookup_last {i : Nat} {r : TagRegistryInner} {e : TagEntry}
    (h : lookupA r.by_id i = some e) (he : e.refcount - 1 = 0) :
    release i r =
      { r with by_id := eraseA r.by_id i, by_name := eraseA r.by_name e.name } := by
  unfold release
  rw [h]
  simp [he]

theorem release_of_lookup_more {i : Nat} {r : TagRegistryInner} {e : TagEntry}
    (h : lookupA r.by_id i = some e) (hne : ¬e.refcount - 1 = 0) :
    release i r =
      { r with by_id := updateA r.by_id i (fun x => { x with refcount := x.refcount - 1 }) } := by
  unfold release
  rw [h]
  simp [hne]

/-- C5 (amended): `acquire(t)` followed by `release` of the returned id restores
the `by_id` and `by_name` tables exactly; `next_id` is unchanged when `t` was
already registered and is incremented by one when `t` was fresh (ids are
monotonic and never reused, so `release` does not roll the counter back). -/
theorem acquire_release_restores_tables (r : TagRegistryInner) (t : String) (id : Nat)
    (r' : TagRegistryInner) (hwf : RegWF r) (h : acquire t r = .ok (id, r')) :
    (release id r').by_id = r.by_id ∧ (release id r').by_name = r.by_name ∧
    ((lookupA r.by_name t).isSome = true → (release id r').next_id = r.next_id) ∧
    (lookupA r.by_name t = none → (release id r').next_id = r.next_id + 1) := by
  unfold acquire at h
  rcases hn : lookupA r.by_name t with _ | id0
  · rw [hn] at h
    simp only at h
    by_cases hmax : r.next_id = UMAX
    · rw [if_pos hmax] at h
      cases h
    · rw [if_neg hmax] at h
      injection h with h'
      injection h' with hid hr
      subst hid
      subst hr
      have hfresh : lookupA r.by_id r.next_id = none := by
        rcases hfid : lookupA r.by_id r.next_id with _ | e
        · rfl
        · exact absurd (hwf.2 _ _ hfid).2 (lt_irrefl _)
      have hbid : insertA r.by_id r.next_id { name := t, refcount := 1 } =
          r.by_id ++ [(r.next_id, { name := t, refcount := 1 })] := by
        simp [insertA, hfresh]
      have hbname : insertA r.by_name t r.next_id = r.by_name ++ [(t, r.next_id)] := by
        simp [insertA, hn]
      have hlook : lookupA (insertA r.by_id r.next_id { name := t, refcount := 1 }) r.next_id =
          some { name := t, refcount := 1 } := lookupA_insertA_self _ _ _
      rw [release_of_lookup_last hlook (show ({ name := t, refcount := 1 } : TagEntry).refcount - 1 = 0 from rfl)]
      refine ⟨?_, ?_, ?_, fun _ => rfl⟩
      · show eraseA (insertA r.by_id r.next_id { name := t, refcount := 1 }) r.next_id = r.by_id
        rw [hbid, eraseA_append, eraseA_of_not_mem _ _ hfresh]
        simp [eraseA]
      · show eraseA (insertA r.by_name t r.next_id) t = r.by_name
        rw [hbname, eraseA_append, eraseA_of_not_mem _ _ hn]
        simp [eraseA]
      · intro hs
        simp at hs
  · rw [hn] at h
    simp only at h
    rcases hi0 : lookupA r.by_id id0 with _ | e
    · rw [hi0] at h
      cases h
    · rw [hi0] at h
      injection h with h'
      injection h' with hid hr
      subst hid
      subst hr
      have hrc : 1 ≤ e.refcount := (hwf.2 _ _ hi0).1
      have hlook : lookupA (updateA r.by_id id0 fun x => { x with refcount := x.refcount + 1 }) id0 =
          some { name := e.name, refcount := e.refcount + 1 } := by
        rw [lookupA_updateA, if_pos rfl, hi0]
        rfl
      have hnz : ¬({ name := e.name, refcount := e.refcount + 1 } : TagEntry).refcount - 1 = 0 := by
        show ¬e.refcount + 1 - 1 = 0
        omega
      rw [release_of_lookup_more hlook hnz]
      refine ⟨?_, rfl, fun _ => rfl, ?_⟩
      · show updateA (updateA r.by_id id0 fun x => { x with refcount := x.refcount + 1 }) id0
            (fun x => { x with refcount := x.refcount - 1 }) = r.by_id
        rw [updateA_updateA]
        exact updateA_id r.by_id id0
      · intro hnone
        cases hnone

def cexReg1 : TagRegistryInner :=
  { next_id := 2, by_id := [(1, { name := "a", refcount := 1 })], by_name := [("a", 1)] }

/-- C5 (counterexample): from the fresh registry, `acquire "a"` returns id 1 and
then `release 1` yields a registry whose `next_id` is 2, not the original 1 —
so acquire-then-release is not the identity on the full registry state. -/
theorem acquire_release_next_id_cex :
    acquire "a" newRegistry = .ok (1, cexReg1) ∧
    release 1 cexReg1 ≠ newRegistry ∧
    (release 1 cexReg1).next_id = 2 ∧ newRegistry.next_id = 1 := by
  refine ⟨rfl, by decide, by decide, rfl⟩

/-- C5 (witness): the amended theorem applied at the fresh registry and tag
string "a". -/
theorem acquire_release_restores_tables_witness :
    (release 1 cexReg1).by_id = newRegistry.by_id ∧
    (release 1 cexReg1).by_name = newRegistry.by_name ∧
    ((lookupA newRegistry.by_name "a").isSome = true →
      (release 1 cexReg1).next_id = newRegistry.next_id) ∧
    (lookupA newRegistry.by_name "a" = none →
      (release 1 cexReg1).next_id = newRegistry.next_id + 1) :=
  acquire_release_restores_tables newRegistry "a" 1 cexReg1 regWF_new rfl

/-- C10: in every registry state reachable from the initial state through
`acquire` and `release`, the `by_name` and `by_id` tables are mutually inverse
(`by_name` maps `n` to `i` iff `by_id` maps `i` to an entry named `n`), every
live entry's refcount is at least 1, and every live id is strictly below
`next_id`. -/
theorem tag_registry_invariants (r : TagRegistryInner) (h : RegReachable r) :
    (∀ n i, lookupA r.by_name n = some i ↔
      ∃ e, lookupA r.by_id i = some e ∧ e.name = n) ∧
    (∀ i e, lookupA r.by_id i = some e → 1 ≤ e.refcount) ∧
    (∀ i e, lookupA r.by_id i = some e → i < r.next_id) := by
  have hwf : RegWF r := by
    induction h with
    | init => exact regWF_new
    | step_acquire t id r0 r1 h0 hacq ih => exact regWF_acquire t r0 id r1 ih hacq
    | step_release i r0 h0 ih => exact regWF_release i r0 ih
  exact ⟨hwf.1, fun i e he => (hwf.2 i e he).1, fun i e he => (hwf.2 i e he).2⟩

/-- C10 (witness): the invariants instantiated at a concrete reachable state,
the one reached by acquiring "a" from the fresh registry. -/
theorem tag_registry_invariants_witness :
    (∀ n i, lookupA cexReg1.by_name n = some i ↔
      ∃ e, lookupA cexReg1.by_id i = some e ∧ e.name = n) ∧
    (∀ i e, lookupA cexReg1.by_id i = some e → 1 ≤ e.refcount) ∧
    (∀ i e, lookupA cexReg1.by_id i = some e → i < cexReg1.next_id) :=
  tag_registry_invariants cexReg1
    (RegReachable.step_acquire "a" 1 newRegistry cexReg1 RegReachable.init rfl)

/-! ## Error model (src/common/src/error.rs; src/couic/src/error.rs wraps it)

`CompositeError::to_string()` prints only `message`, so the
`contains("mismatch")` checks in the LPM store inspect `message`.  Messages
that interpolate an externally-rendered value (a CIDR's `Display`, an `aya`
error string) keep the surrounding literal text with the interpolation
elided or oracle-supplied. -/

inductive ErrorCode where
  | Eprocessing
  | Eunauthorized
  | Enotfound
  | Econflict
  | Ebadrequest
  | Einvalid
  | Einternal
  | Enotimplemented
deriving DecidableEq, Repr

structure ErrorDetail where
  code : ErrorCode
  message : String
deriving DecidableEq, Repr

structure CompositeError where
  code : ErrorCode
  message : String
  errors : List (String × ErrorDetail)
deriving DecidableEq, Repr

def CompositeError.new (code : ErrorCode) (message : String) : CompositeError :=
  { code := code, message := message, errors := [] }

def CompositeError.add_detail (e : CompositeError) (field : String) (code : ErrorCode)
    (message : String) : CompositeError :=
  { e with errors := insertA e.errors field { code := code, message := message } }

/-- `str::contains(pat)` over the characters of the two strings. -/
def headMatch : List Char → List Char → Bool
  | [], _ => true
  | _ :: _, [] => false
  | a :: as, b :: bs => a == b && headMatch as bs

def containsSub (s pat : String) : Bool :=
  (List.range (s.data.length + 1)).any (fun i => headMatch pat.data (s.data.drop i))

/-! ## RBAC service (src/couic/src/api/rbac.rs)

`Uuid` tokens become `Nat`; the on-disk client files are external to the
modelled state, so `delete_client_by_name` takes the outcome of
`remove_client_file` as an oracle argument (the in-memory table is the
modelled state, exactly as the Rust method mutates it). -/

inductive Resource where
  | Policy
  | Sets
  | Stats
  | Clients
  | Any
deriving DecidableEq, Repr

inductive Verb where
  | Get
  | List
  | Delete
  | Create
  | Update
  | Peer
  | Any
deriving DecidableEq, Repr

structure Scope where
  resource : Resource
  verb : Verb
deriving DecidableEq, Repr

def Scope.matches (self other : Scope) : Bool :=
  (self.resource == Resource.Any || self.resource == other.resource) &&
  (self.verb == Verb.Any || self.verb == other.verb)

/-- Modelled from the spec: the spec's matching rule — "resource matches
(`Any` on either side is a wildcard) and verb matches (same rule)" — written
out for comparison with the source's `Scope::matches`. -/
def specScopeMatches (held requested : Scope) : Bool :=
  (held.resource == Resource.Any || requested.resource == Resource.Any ||
    held.resource == requested.resource) &&
  (held.verb == Verb.Any || requested.verb == Verb.Any || held.verb == requested.verb)

inductive ClientGroup where
  | Admin
  | ClientRo
  | ClientRw
  | Monitoring
  | Peering
deriving DecidableEq, Repr

structure Client where
  name : String
  token : Nat
  group : ClientGroup
deriving DecidableEq, Repr

def DEFAULT_USER : String := "couicctl"

def default_roles : List (ClientGroup × List Scope) :=
  [(ClientGroup.Admin, [{ resource := Resource.Any, verb := Verb.Any }]),
   (ClientGroup.ClientRo, [{ resource := Resource.Policy, verb := Verb.Get },
                     { resource := Resource.Policy, verb := Verb.List },
                     { resource := Resource.Sets, verb := Verb.Get },
                     { resource := Resource.Sets, verb := Verb.List }]),
   (ClientGroup.ClientRw, [{ resource := Resource.Policy, verb := Verb.Any },
                     { resource := Resource.Sets, verb := Verb.Any }]),
   (ClientGroup.Monitoring, [{ resource := Resource.Stats, verb := Verb.List },
                       { resource := Resource.Stats, verb := Verb.Get }]),
   (ClientGroup.Peering, [{ resource := Resource.Policy, verb := Verb.Peer }])]

def check_authorization (clients : List (Nat × Client)) (roles : List (ClientGroup × List Scope))
    (token : Nat) (scope : Scope) : Option Client :=
  match lookupA clients token with
  | none => none
  | some client =>
    match lookupA roles client.group with
    | none => none
    | some permissions =>
      if permissions.any (fun perm => Scope.matches perm scope) then some client else none

def delete_client_by_name (removeFile : Client → Except CompositeError Unit)
    (clients : List (Nat × Client)) (name : String) :
    Except CompositeError Unit × List (Nat × Client) :=
  match (clients.map Prod.snd).find? (fun c => c.name == name) with
  | none => (.error (CompositeError.new .Enotfound ("Client not found: " ++ name)), clients)
  | some c0 =>
    let token := c0.token
    let isDefault : Bool :=
      match lookupA clients token with
      | some c => c.name == DEFAULT_USER
      | none => false
    if isDefault then
      (.error (CompositeError.new .Einvalid ("Cannot delete default client")), clients)
    else
      match lookupA clients token with
      | some client =>
        let clients' := eraseA clients token
        match removeFile client with
        | .ok _ => (.ok (), clients')
        | .error e => (.error e, clients')
      | none => (.error (CompositeError.new .Enotfound ("Client not found: " ++ name)), clients)

/-- C2 (counterexample): a held scope with a concrete resource does not match
a requested scope whose resource is `Any` — the source's wildcard applies to
the held side only, while the spec's rule ("`Any` on either side") accepts
this pair. -/
theorem scope_matches_requested_any_cex :
    Scope.matches { resource := Resource.Policy, verb := Verb.Get }
      { resource := Resource.Any, verb := Verb.Get } = false ∧
    specScopeMatches { resource := Resource.Policy, verb := Verb.Get }
      { resource := Resource.Any, verb := Verb.Get } = true := by
  decide

/-- C2 (amended): `Scope.matches(held, requested)` is true iff the held
resource is `Any` or equals the requested resource, and the held verb is
`Any` or equals the requested verb (wildcard on the held side only); a
request is authorized — `check_authorization` returns a client — iff the
token is known, its group has a scope list, and some held scope of that list
matches the request scope. -/
theorem scope_matches_held_wildcard :
    (∀ held requested : Scope, Scope.matches held requested = true ↔
      ((held.resource = Resource.Any ∨ held.resource = requested.resource) ∧
       (held.verb = Verb.Any ∨ held.verb = requested.verb))) ∧
    (∀ (clients : List (Nat × Client)) (roles : List (ClientGroup × List Scope))
        (token : Nat) (scope : Scope),
      (check_authorization clients roles token scope).isSome = true ↔
      ∃ client permissions, lookupA clients token = some client ∧
        lookupA roles client.group = some permissions ∧
        ∃ s ∈ permissions, Scope.matches s scope = true) := by
  constructor
  · intro held requested
    simp [Scope.matches]
  · intro clients roles token scope
    rcases hc : lookupA clients token with _ | client
    · have hval : check_authorization clients roles token scope = none := by
        unfold check_authorization
        rw [hc]
      rw [hval]
      simp only [Option.isSome_none, Bool.false_eq_true, false_iff]
      intro hex
      obtain ⟨c', p', hc', _⟩ := hex
      cases hc'
    · rcases hr : lookupA roles client.group with _ | permissions
      · have hval : check_authorization clients roles token scope = none := by
          unfold check_authorization
          rw [hc]
          simp only [hr]
        rw [hval]
        simp only [Option.isSome_none, Bool.false_eq_true, false_iff]
        intro hex
        obtain ⟨c', p', hc', hp', _⟩ := hex
        injection hc' with hc'
        subst hc'
        rw [hr] at hp'
        cases hp'
      · have hval : check_authorization clients roles token scope =
            if permissions.any (fun perm => Scope.matches perm scope) then some client
            else none := by
          unfold check_authorization
          rw [hc]
          simp only [hr]
        by_cases hany : permissions.any (fun perm => Scope.matches perm scope) = true
        · rw [hval, if_pos hany]
          simp only [Option.isSome_some, true_iff]
          rw [List.any_eq_true] at hany
          obtain ⟨s, hs, hm⟩ := hany
          exact ⟨client, permissions, rfl, hr, s, hs, hm⟩
        · rw [hval, if_neg hany]
          simp only [Option.isSome_none, Bool.false_eq_true, false_iff]
          intro hex
          obtain ⟨c', p', hc', hp', s, hs, hm⟩ := hex
          injection hc' with hc'
          subst hc'
          rw [hr] at hp'
          injection hp' with hp'
          subst hp'
          exact hany (List.any_eq_true.mpr ⟨s, hs, hm⟩)

/-- C7 (counterexample): with one non-default client "bob" and a failing
`remove_client_file`, `delete_client_by_name` returns the error but the
in-memory table no longer contains the client — the entry is removed before
the file, not after. -/
theorem delete_client_file_failure_cex :
    (delete_client_by_name
        (fun _ => .error (CompositeError.new .Enotfound ("Client file not found")))
        [(7, { name := "bob", token := 7, group := ClientGroup.ClientRo })] "bob").1 =
      .error (CompositeError.new .Enotfound ("Client file not found")) ∧
    lookupA (delete_client_by_name
        (fun _ => .error (CompositeError.new .Enotfound ("Client file not found")))
        [(7, { name := "bob", token := 7, group := ClientGroup.ClientRo })] "bob").2 7 =
      none := by
  constructor
  · rfl
  · rfl

/-- C7 (amended): `delete_client_by_name(n)` refuses to delete the reserved
default client name; otherwise it removes the in-memory entry first and then
removes the on-disk file — so when removing the file fails with an error,
that error is returned but the in-memory client table no longer contains the
client. -/
theorem delete_client_removes_entry_first
    (removeFile : Client → Except CompositeError Unit)
    (clients : List (Nat × Client)) (name : String) (c0 : Client)
    (hfind : (clients.map Prod.snd).find? (fun c => c.name == name) = some c0)
    (hlook : lookupA clients c0.token = some c0) :
    (c0.name = DEFAULT_USER →
      delete_client_by_name removeFile clients name =
        (.error (CompositeError.new .Einvalid ("Cannot delete default client")), clients)) ∧
    (c0.name ≠ DEFAULT_USER →
      (delete_client_by_name removeFile clients name).2 = eraseA clients c0.token ∧
      (delete_client_by_name removeFile clients name).1 = removeFile c0) := by
  constructor
  · intro hdef
    unfold delete_client_by_name
    rw [hfind]
    simp only [hlook, hdef]
    simp [DEFAULT_USER]
  · intro hdef
    have hnd : (match lookupA clients c0.token with
        | some c => c.name == DEFAULT_USER
        | none => false) = false := by
      rw [hlook]
      simp [hdef]
    constructor
    · unfold delete_client_by_name
      rw [hfind]
      simp only [hnd, if_false, Bool.false_eq_true]
      rw [hlook]
      rcases hrf : removeFile c0 with e | u <;> simp [hrf]
    · unfold delete_client_by_name
      rw [hfind]
      simp only [hnd, if_false, Bool.false_eq_true]
      rw [hlook]
      rcases hrf : removeFile c0 with e | u <;> simp [hrf]

/-- C7 (witness): the amended theorem at a concrete one-client table with a
failing file removal. -/
theorem delete_client_removes_entry_first_witness :
    (({ name := "bob", token := 7, group := ClientGroup.ClientRo } : Client).name = DEFAULT_USER →
      delete_client_by_name
          (fun _ => .error (CompositeError.new .Enotfound ("Client file not found")))
          [(7, { name := "bob", token := 7, group := ClientGroup.ClientRo })] "bob" =
        (.error (CompositeError.new .Einvalid ("Cannot delete default client")),
         [(7, { name := "bob", token := 7, group := ClientGroup.ClientRo })])) ∧
    (({ name := "bob", token := 7, group := ClientGroup.ClientRo } : Client).name ≠ DEFAULT_USER →
      (delete_client_by_name
          (fun _ => .error (CompositeError.new .Enotfound ("Client file not found")))
          [(7, { name := "bob", token := 7, group := ClientGroup.ClientRo })] "bob").2 =
        eraseA [(7, { name := "bob", token := 7, group := ClientGroup.ClientRo })]
          ({ name := "bob", token := 7, group := ClientGroup.ClientRo } : Client).token ∧
      (delete_client_by_name
          (fun _ => .error (CompositeError.new .Enotfound ("Client file not found")))
          [(7, { name := "bob", token := 7, group := ClientGroup.ClientRo })] "bob").1 =
        (fun _ => .error (CompositeError.new .Enotfound ("Client file not found")))
          ({ name := "bob", token := 7, group := ClientGroup.ClientRo } : Client)) :=
  delete_client_removes_entry_first
    (fun _ => .error (CompositeError.new .Enotfound ("Client file not found")))
    [(7, { name := "bob", token := 7, group := ClientGroup.ClientRo })] "bob"
    { name := "bob", token := 7, group := ClientGroup.ClientRo } rfl rfl

/-! ## CIDR model (src/common/src/cidr.rs)

`IpNet` (the external `ipnet` crate's type as the repository uses it) is a
family tag together with the address as a number below `2^w` and a prefix
length; `trunc` clears the host bits exactly as `ipnet`'s `trunc` does.
The textual rendering and parsing of an `IpNet` (`Display`/`FromStr` of the
`ipnet` crate and `std::net`) are external to the repository, so the
round-trip theorem takes that codec together with its round-trip contract as
arguments; the repository-owned content — `NormalizedCidr::new` truncates,
truncation is idempotent, and `FromStr for NormalizedCidr` re-normalizes
through `new` — is modelled from the source. -/

def truncVal (w addr p : Nat) : Nat := (addr >>> (w - p)) <<< (w - p)

inductive IpNet where
  | v4 (addr : Nat) (plen : Nat)
  | v6 (addr : Nat) (plen : Nat)
deriving DecidableEq, Repr

def IpNet.trunc : IpNet → IpNet
  | .v4 a p => .v4 (truncVal 32 a p) p
  | .v6 a p => .v6 (truncVal 128 a p) p

def IpNet.network : IpNet → Nat
  | .v4 a p => truncVal 32 a p
  | .v6 a p => truncVal 128 a p

def IpNet.isV4 : IpNet → Bool
  | .v4 _ _ => true
  | .v6 _ _ => false

theorem shiftLeft_shiftRight_self (y k : Nat) : (y <<< k) >>> k = y := by
  rw [Nat.shiftLeft_eq, Nat.shiftRight_eq_div_pow, Nat.mul_comm y]
  exact Nat.mul_div_cancel_left y (Nat.pos_pow_of_pos k (by omega))

theorem truncVal_idem (w a p : Nat) : truncVal w (truncVal w a p) p = truncVal w a p := by
  show ((a >>> (w - p)) <<< (w - p)) >>> (w - p) <<< (w - p) = (a >>> (w - p)) <<< (w - p)
  rw [shiftLeft_shiftRight_self]

theorem IpNet.trunc_idem (x : IpNet) : x.trunc.trunc = x.trunc := by
  cases x <;> simp [IpNet.trunc, truncVal_idem]

def NormalizedCidr : Type := { x : IpNet // x.trunc = x }

instance : DecidableEq NormalizedCidr :=
  inferInstanceAs (DecidableEq { x : IpNet // x.trunc = x })

def NormalizedCidr.new (x : IpNet) : NormalizedCidr := ⟨x.trunc, IpNet.trunc_idem x⟩

def NormalizedCidr.val (c : NormalizedCidr) : IpNet := Subtype.val c

def NormalizedCidr.is_v4 (c : NormalizedCidr) : Bool := c.val.isV4

/-- `u32::to_be`/`u128::to_be` as the byte-reversed value (little-endian host). -/
def bswapBytes (nbytes n : Nat) : Nat :=
  (List.range nbytes).foldl (fun acc i => acc * 256 + (n >>> (8 * i)) % 256) 0

def NormalizedCidr.to_lpm_key_v4 (c : NormalizedCidr) : Option (Nat × Nat) :=
  match c.val with
  | .v4 a p => some (p, bswapBytes 4 (truncVal 32 a p))
  | .v6 _ _ => none

def NormalizedCidr.to_lpm_key_v6 (c : NormalizedCidr) : Option (Nat × Nat) :=
  match c.val with
  | .v4 _ _ => none
  | .v6 a p => some (p, bswapBytes 16 (truncVal 128 a p))

/-- `Display for NormalizedCidr` delegates to the inner `IpNet`'s rendering. -/
def ncToString (render : IpNet → String) (c : NormalizedCidr) : String := render c.val

/-- `FromStr for NormalizedCidr`: parse an `IpNet`, then `Self::new` (re-normalize). -/
def ncFromStr (pa : String → Option IpNet) (s : String) : Option NormalizedCidr :=
  (pa s).map NormalizedCidr.new

def hostBitsZero : IpNet → Bool
  | .v4 a p => a % 2 ^ (32 - p) == 0
  | .v6 a p => a % 2 ^ (128 - p) == 0

/-- C8: with the external address codec satisfying its round-trip contract,
parsing the serialized form of any `NormalizedCidr` yields it back (because
`FromStr` re-truncates and truncation fixes already-normalized values); and
for every `IpNet` x, `NormalizedCidr::new(x)` has all host bits cleared and
its network address is the truncation of x to its prefix length. -/
theorem cidr_roundtrip_and_normalized
    (render : IpNet → String) (pa : String → Option IpNet)
    (hcodec : ∀ x : IpNet, pa (render x) = some x) :
    (∀ c : NormalizedCidr, ncFromStr pa (ncToString render c) = some c) ∧
    (∀ x : IpNet, hostBitsZero (NormalizedCidr.new x).val = true) ∧
    (∀ x : IpNet, (NormalizedCidr.new x).val.network = x.network) := by
  refine ⟨?_, ?_, ?_⟩
  · intro c
    unfold ncFromStr ncToString
    rw [hcodec c.val]
    simp only [Option.map_some']
    congr 1
    apply Subtype.ext
    show c.val.trunc = Subtype.val c
    exact c.property
  · intro x
    cases x with
    | v4 a p =>
      show (truncVal 32 a p % 2 ^ (32 - p) == 0) = true
      rw [beq_iff_eq]
      unfold truncVal
      rw [Nat.shiftLeft_eq]
      exact Nat.mul_mod_left _ _
    | v6 a p =>
      show (truncVal 128 a p % 2 ^ (128 - p) == 0) = true
      rw [beq_iff_eq]
      unfold truncVal
      rw [Nat.shiftLeft_eq]
      exact Nat.mul_mod_left _ _
  · intro x
    cases x with
    | v4 a p =>
      show truncVal 32 (truncVal 32 a p) p = truncVal 32 a p
      exact truncVal_idem 32 a p
    | v6 a p =>
      show truncVal 128 (truncVal 128 a p) p = truncVal 128 a p
      exact truncVal_idem 128 a p

def ipCode : IpNet → Nat
  | .v4 a p => 2 * Nat.pair a p
  | .v6 a p => 2 * Nat.pair a p + 1

def ipDecode (n : Nat) : IpNet :=
  if n % 2 = 0 then .v4 (Nat.unpair (n / 2)).1 (Nat.unpair (n / 2)).2
  else .v6 (Nat.unpair (n / 2)).1 (Nat.unpair (n / 2)).2

/-- An injective demonstration codec: the address rendered in unary. -/
def demoRender (x : IpNet) : String := String.mk (List.replicate (ipCode x) 'a')

def demoParse (s : String) : Option IpNet := some (ipDecode s.data.length)

theorem demo_roundtrip (x : IpNet) : demoParse (demoRender x) = some x := by
  unfold demoParse demoRender
  congr 1
  rw [show (String.mk (List.replicate (ipCode x) 'a')).data = List.replicate (ipCode x) 'a' from rfl]
  rw [List.length_replicate]
  cases x with
  | v4 a p =>
    show ipDecode (2 * Nat.pair a p) = IpNet.v4 a p
    unfold ipDecode
    rw [if_pos (Nat.mul_mod_right 2 _)]
    rw [Nat.mul_div_cancel_left _ (by omega)]
    rw [Nat.unpair_pair]
  | v6 a p =>
    show ipDecode (2 * Nat.pair a p + 1) = IpNet.v6 a p
    unfold ipDecode
    rw [if_neg (by omega)]
    rw [Nat.mul_add_div (by omega)]
    simp [Nat.unpair_pair]

/-- C8 (witness): the round-trip theorem applied at a concrete injective codec. -/
theorem cidr_roundtrip_and_normalized_witness :
    (∀ c : NormalizedCidr, ncFromStr demoParse (ncToString demoRender c) = some c) ∧
    (∀ x : IpNet, hostBitsZero (NormalizedCidr.new x).val = true) ∧
    (∀ x : IpNet, (NormalizedCidr.new x).val.network = x.network) :=
  cidr_roundtrip_and_normalized demoRender demoParse demo_roundtrip

/-! ## LPM store (src/couic/src/firewall/lpm.rs)

One store per (policy, family): the userspace authoritative map `items`
mirrors the kernel LPM trie `kernel` (keyed by the `(prefix_len, be-address)`
LPM key, valued by the `u64` tag id).  Each operation takes the kernel
syscall outcome `kres` as an oracle argument; interpolated foreign message
text (the CIDR's `Display`, the `aya` error) is elided or oracle-supplied,
the surrounding literals are kept verbatim. -/

structure StoredEntry where
  creation : Nat
  tag_id : Nat
  expiration : Nat
deriving DecidableEq, Repr

def StoredEntry.expired (e : StoredEntry) (now : Nat) : Bool :=
  if e.expiration = 0 then false else decide (e.expiration ≤ now)

structure LpmStoreState where
  isV4 : Bool
  maxEntries : Nat
  items : List (NormalizedCidr × StoredEntry)
  kernel : List ((Nat × Nat) × Nat)
deriving DecidableEq

def lpmKeyOf (isV4 : Bool) (c : NormalizedCidr) : Option (Nat × Nat) :=
  if isV4 then c.to_lpm_key_v4 else c.to_lpm_key_v6

/-- `LpmMap::insert_entry`: key extraction (family check), then the kernel
`insert` syscall. -/
def insert_entry (kres : Except String Unit) (isV4 : Bool)
    (kernel : List ((Nat × Nat) × Nat)) (cidr : NormalizedCidr) (e : StoredEntry) :
    Except CompositeError (List ((Nat × Nat) × Nat)) :=
  match lpmKeyOf isV4 cidr with
  | none => .error (CompositeError.new .Einvalid
      (if isV4 then ("Expected IPv4 address") else ("Expected IPv6 address")))
  | some key =>
    match kres with
    | .ok _ => .ok (insertA kernel key e.tag_id)
    | .error m => .error (CompositeError.new .Einternal ("ebpf insert error: " ++ m))

/-- `LpmMap::remove_entry`. -/
def remove_entry (kres : Except String Unit) (isV4 : Bool)
    (kernel : List ((Nat × Nat) × Nat)) (cidr : NormalizedCidr) :
    Except CompositeError (List ((Nat × Nat) × Nat)) :=
  match lpmKeyOf isV4 cidr with
  | none => .error (CompositeError.new .Einvalid
      (if isV4 then ("Expected IPv4 address") else ("Expected IPv6 address")))
  | some key =>
    match kres with
    | .ok _ => .ok (eraseA kernel key)
    | .error m => .error (CompositeError.new .Einternal ("ebpf delete error: " ++ m))

/-- The `map_err` classification on the store's insert/delete paths:
`contains("mismatch")` on the error's display (its message). -/
def classifyStoreErr (verb : String) (e : CompositeError) : CompositeError :=
  if containsSub e.message "mismatch" then CompositeError.new .Einvalid e.message
  else CompositeError.new .Einternal
    ("unexpected error occurs while " ++ verb ++ " ebpf entry: " ++ e.message)

def mapFullError (maxEntries : Nat) : CompositeError :=
  CompositeError.new .Econflict
    ("couic underlying ebpf map is full: max " ++ toString maxEntries ++ " entries")

def add_stored (kres : Except String Unit) (s : LpmStoreState)
    (cidr : NormalizedCidr) (stored_entry : StoredEntry) :
    Except CompositeError Unit × LpmStoreState :=
  if s.items.length ≥ s.maxEntries then
    (.error (mapFullError s.maxEntries), s)
  else
    match lookupA s.items cidr with
    | none =>
      match insert_entry kres s.isV4 s.kernel cidr stored_entry with
      | .ok kernel1 =>
        (.ok (), { s with kernel := kernel1, items := insertA s.items cidr stored_entry })
      | .error e => (.error (classifyStoreErr ("inserting") e), s)
    | some _ =>
      (.error ((CompositeError.new .Econflict ("submitted entry is not valid")).add_detail
        ("cidr") .Econflict ("already exists")), s)

def update_stored (kres : Except String Unit) (s : LpmStoreState)
    (cidr : NormalizedCidr) (new_stored : StoredEntry) :
    Except CompositeError StoredEntry × LpmStoreState :=
  match lookupA s.items cidr with
  | some existing =>
    if existing.tag_id ≠ new_stored.tag_id then
      match insert_entry kres s.isV4 s.kernel cidr new_stored with
      | .ok kernel1 =>
        (.ok existing,
         { s with kernel := kernel1, items := updateA s.items cidr (fun _ => new_stored) })
      | .error e => (.error (CompositeError.new .Einternal ("ebpf update error: " ++ e.message)), s)
    else
      (.ok existing, { s with items := updateA s.items cidr (fun _ => new_stored) })
  | none =>
    (.error ((CompositeError.new .Enotfound ("submitted entry not found")).add_detail
      ("cidr") .Enotfound ("not found")), s)

def add_or_update_stored (kres : Except String Unit) (s : LpmStoreState)
    (cidr : NormalizedCidr) (new_stored : StoredEntry) :
    Except CompositeError (Option StoredEntry) × LpmStoreState :=
  if s.items.length ≥ s.maxEntries ∧ lookupA s.items cidr = none then
    (.error (mapFullError s.maxEntries), s)
  else
    match lookupA s.items cidr with
    | some old_stored =>
      if old_stored.tag_id ≠ new_stored.tag_id then
        match insert_entry kres s.isV4 s.kernel cidr new_stored with
        | .ok kernel1 =>
          (.ok (some old_stored),
           { s with kernel := kernel1, items := updateA s.items cidr (fun _ => new_stored) })
        | .error e =>
          (.error (CompositeError.new .Einternal ("ebpf update error: " ++ e.message)), s)
      else
        (.ok (some old_stored), { s with items := updateA s.items cidr (fun _ => new_stored) })
    | none =>
      match insert_entry kres s.isV4 s.kernel cidr new_stored with
      | .ok kernel1 =>
        (.ok none, { s with kernel := kernel1, items := insertA s.items cidr new_stored })
      | .error e => (.error (classifyStoreErr ("inserting") e), s)

def remove_stored (kres : Except String Unit) (s : LpmStoreState) (cidr : NormalizedCidr) :
    Except CompositeError StoredEntry × LpmStoreState :=
  match lookupA s.items cidr with
  | some entry =>
    match remove_entry kres s.isV4 s.kernel cidr with
    | .ok kernel1 =>
      (.ok entry, { s with kernel := kernel1, items := eraseA s.items cidr })
    | .error e => (.error (classifyStoreErr ("deleting") e), s)
  | none =>
    (.error ((CompositeError.new .Enotfound ("submitted entry not found")).add_detail
      ("cidr") .Enotfound ("not found")), s)

/-- The retain pass of one cleanup cycle (`launch_cleanup_thread`'s loop body
at time `now`, after the shrink and emptiness checks): each expired entry is
removed from the kernel map, and on success its `tag_id` is sent on the
tag-release channel (the returned list, in iteration order) and the
userspace entry dropped; on kernel failure the entry is retained.  `kok`
gives each kernel removal's outcome. -/
def sweeper_tick (now : Nat) (kok : NormalizedCidr → Except String Unit) (isV4 : Bool) :
    List (NormalizedCidr × StoredEntry) → List ((Nat × Nat) × Nat) →
    List (NormalizedCidr × StoredEntry) × List ((Nat × Nat) × Nat) × List Nat
  | [], kernel => ([], kernel, [])
  | (cidr, e) :: rest, kernel =>
    if e.expired now then
      match remove_entry (kok cidr) isV4 kernel cidr with
      | .ok kernel1 =>
        let r := sweeper_tick now kok isV4 rest kernel1
        (r.1, r.2.1, e.tag_id :: r.2.2)
      | .error _ =>
        let r := sweeper_tick now kok isV4 rest kernel
        ((cidr, e) :: r.1, r.2.1, r.2.2)
    else
      let r := sweeper_tick now kok isV4 rest kernel
      ((cidr, e) :: r.1, r.2.1, r.2.2)

theorem add_stored_error_frame (kres : Except String Unit) (s : LpmStoreState)
    (cidr : NormalizedCidr) (e : StoredEntry) (err : CompositeError) (s' : LpmStoreState)
    (h : add_stored kres s cidr e = (.error err, s')) : s' = s := by
  unfold add_stored at h
  by_cases hcap : s.items.length ≥ s.maxEntries
  · rw [if_pos hcap] at h
    injection h with h1 h2
    exact h2.symm
  · rw [if_neg hcap] at h
    rcases hl : lookupA s.items cidr with _ | old
    · rw [hl] at h
      simp only at h
      rcases hk : insert_entry kres s.isV4 s.kernel cidr e with e2 | k1
      · rw [hk] at h
        injection h with h1 h2
        exact h2.symm
      · rw [hk] at h
        injection h with h1 h2
        cases h1
    · rw [hl] at h
      injection h with h1 h2
      exact h2.symm

theorem add_stored_ok_effect (kres : Except String Unit) (s : LpmStoreState)
    (cidr : NormalizedCidr) (e : StoredEntry) (s' : LpmStoreState)
    (h : add_stored kres s cidr e = (.ok (), s')) :
    lookupA s'.items cidr = some e ∧
    ∃ key, lpmKeyOf s.isV4 cidr = some key ∧ lookupA s'.kernel key = some e.tag_id := by
  unfold add_stored at h
  by_cases hcap : s.items.length ≥ s.maxEntries
  · rw [if_pos hcap] at h
    injection h with h1 h2
    cases h1
  · rw [if_neg hcap] at h
    rcases hl : lookupA s.items cidr with _ | old
    · rw [hl] at h
      simp only at h
      rcases hk : insert_entry kres s.isV4 s.kernel cidr e with e2 | k1
      · rw [hk] at h
        injection h with h1 h2
        cases h1
      · rw [hk] at h
        injection h with h1 h2
        subst h2
        unfold insert_entry at hk
        rcases hkey : lpmKeyOf s.isV4 cidr with _ | key
        · rw [hkey] at hk
          cases hk
        · rw [hkey] at hk
          rcases kres with m | u
          · cases hk
          · injection hk with hk
            subst hk
            exact ⟨lookupA_insertA_self _ _ _, key, rfl, lookupA_insertA_self _ _ _⟩
    · rw [hl] at h
      injection h with h1 h2
      cases h1

theorem update_stored_error_frame (kres : Except String Unit) (s : LpmStoreState)
    (cidr : NormalizedCidr) (e : StoredEntry) (err : CompositeError) (s' : LpmStoreState)
    (h : update_stored kres s cidr e = (.error err, s')) : s' = s := by
  unfold update_stored at h
  rcases hl : lookupA s.items cidr with _ | existing
  · rw [hl] at h
    injection h with h1 h2
    exact h2.symm
  · rw [hl] at h
    simp only at h
    by_cases htag : existing.tag_id ≠ e.tag_id
    · rw [if_pos htag] at h
      rcases hk : insert_entry kres s.isV4 s.kernel cidr e with e2 | k1
      · rw [hk] at h
        injection h with h1 h2
        exact h2.symm
      · rw [hk] at h
        injection h with h1 h2
        cases h1
    · rw [if_neg htag] at h
      injection h with h1 h2
      cases h1

theorem update_stored_ok_effect (kres : Except String Unit) (s : LpmStoreState)
    (cidr : NormalizedCidr) (e old : StoredEntry) (s' : LpmStoreState)
    (h : update_stored kres s cidr e = (.ok old, s')) :
    lookupA s.items cidr = some old ∧ lookupA s'.items cidr = some e ∧
    (old.tag_id ≠ e.tag_id →
      ∃ key, lpmKeyOf s.isV4 cidr = some key ∧ lookupA s'.kernel key = some e.tag_id) := by
  unfold update_stored at h
  rcases hl : lookupA s.items cidr with _ | existing
  · rw [hl] at h
    injection h with h1 h2
    cases h1
  · rw [hl] at h
    simp only at h
    by_cases htag : existing.tag_id ≠ e.tag_id
    · rw [if_pos htag] at h
      rcases hk : insert_entry kres s.isV4 s.kernel cidr e with e2 | k1
      · rw [hk] at h
        injection h with h1 h2
        cases h1
      · rw [hk] at h
        injection h with h1 h2
        injection h1 with h1
        subst h1
        subst h2
        refine ⟨rfl, ?_, ?_⟩
        · show lookupA (updateA s.items cidr (fun _ => e)) cidr = some e
          rw [lookupA_updateA, if_pos rfl, hl]
          rfl
        · intro _
          unfold insert_entry at hk
          rcases hkey : lpmKeyOf s.isV4 cidr with _ | key
          · rw [hkey] at hk
            cases hk
          · rw [hkey] at hk
            rcases kres with m | u
            · cases hk
            · injection hk with hk
              subst hk
              exact ⟨key, rfl, lookupA_insertA_self _ _ _⟩
    · rw [if_neg htag] at h
      injection h with h1 h2
      injection h1 with h1
      subst h1
      subst h2
      refine ⟨rfl, ?_, ?_⟩
      · show lookupA (updateA s.items cidr (fun _ => e)) cidr = some e
        rw [lookupA_updateA, if_pos rfl, hl]
        rfl
      · intro hne
        exact absurd hne htag

theorem add_or_update_stored_error_frame (kres : Except String Unit) (s : LpmStoreState)
    (cidr : NormalizedCidr) (e : StoredEntry) (err : CompositeError) (s' : LpmStoreState)
    (h : add_or_update_stored kres s cidr e = (.error err, s')) : s' = s := by
  unfold add_or_update_stored at h
  by_cases hcap : s.items.length ≥ s.maxEntries ∧ lookupA s.items cidr = none
  · rw [if_pos hcap] at h
    injection h with h1 h2
    exact h2.symm
  · rw [if_neg hcap] at h
    rcases hl : lookupA s.items cidr with _ | old
    · rw [hl] at h
      simp only at h
      rcases hk : insert_entry kres s.isV4 s.kernel cidr e with e2 | k1
      · rw [hk] at h
        injection h with h1 h2
        exact h2.symm
      · rw [hk] at h
        injection h with h1 h2
        cases h1
    · rw [hl] at h
      simp only at h
      by_cases htag : old.tag_id ≠ e.tag_id
      · rw [if_pos htag] at h
        rcases hk : insert_entry kres s.isV4 s.kernel cidr e with e2 | k1
        · rw [hk] at h
          injection h with h1 h2
          exact h2.symm
        · rw [hk] at h
          injection h with h1 h2
          cases h1
      · rw [if_neg htag] at h
        injection h with h1 h2
        cases h1

theorem add_or_update_stored_ok_effect (kres : Except String Unit) (s : LpmStoreState)
    (cidr : NormalizedCidr) (e : StoredEntry) (old : Option StoredEntry) (s' : LpmStoreState)
    (h : add_or_update_stored kres s cidr e = (.ok old, s')) :
    lookupA s'.items cidr = some e ∧ old = lookupA s.items cidr ∧
    ((old = none ∨ ∃ o, old = some o ∧ o.tag_id ≠ e.tag_id) →
      ∃ key, lpmKeyOf s.isV4 cidr = some key ∧ lookupA s'.kernel key = some e.tag_id) := by
  unfold add_or_update_stored at h
  by_cases hcap : s.items.length ≥ s.maxEntries ∧ lookupA s.items cidr = none
  · rw [if_pos hcap] at h
    injection h with h1 h2
    cases h1
  · rw [if_neg hcap] at h
    rcases hl : lookupA s.items cidr with _ | old0
    · rw [hl] at h
      simp only at h
      rcases hk : insert_entry kres s.isV4 s.kernel cidr e with e2 | k1
      · rw [hk] at h
        injection h with h1 h2
        cases h1
      · rw [hk] at h
        injection h with h1 h2
        injection h1 with h1
        subst h1
        subst h2
        refine ⟨lookupA_insertA_self _ _ _, rfl, ?_⟩
        intro _
        unfold insert_entry at hk
        rcases hkey : lpmKeyOf s.isV4 cidr with _ | key
        · rw [hkey] at hk
          cases hk
        · rw [hkey] at hk
          rcases kres with m | u
          · cases hk
          · injection hk with hk
            subst hk
            exact ⟨key, rfl, lookupA_insertA_self _ _ _⟩
    · rw [hl] at h
      simp only at h
      by_cases htag : old0.tag_id ≠ e.tag_id
      · rw [if_pos htag] at h
        rcases hk : insert_entry kres s.isV4 s.kernel cidr e with e2 | k1
        · rw [hk] at h
          injection h with h1 h2
          cases h1
        · rw [hk] at h
          injection h with h1 h2
          injection h1 with h1
          subst h1
          subst h2
          refine ⟨?_, rfl, ?_⟩
          · show lookupA (updateA s.items cidr (fun _ => e)) cidr = some e
            rw [lookupA_updateA, if_pos rfl, hl]
            rfl
          · intro _
            unfold insert_entry at hk
            rcases hkey : lpmKeyOf s.isV4 cidr with _ | key
            · rw [hkey] at hk
              cases hk
            · rw [hkey] at hk
              rcases kres with m | u
              · cases hk
              · injection hk with hk
                subst hk
                exact ⟨key, rfl, lookupA_insertA_self _ _ _⟩
      · rw [if_neg htag] at h
        injection h with h1 h2
        injection h1 with h1
        subst h1
        subst h2
        refine ⟨?_, rfl, ?_⟩
        · show lookupA (updateA s.items cidr (fun _ => e)) cidr = some e
          rw [lookupA_updateA, if_pos rfl, hl]
          rfl
        · intro hdisj
          rcases hdisj with hn | ⟨o, ho, hne⟩
          · cases hn
          · injection ho with ho
            subst ho
            exact absurd hne htag

theorem remove_stored_error_frame (kres : Except String Unit) (s : LpmStoreState)
    (cidr : NormalizedCidr) (err : CompositeError) (s' : LpmStoreState)
    (h : remove_stored kres s cidr = (.error err, s')) : s' = s := by
  unfold remove_stored at h
  rcases hl : lookupA s.items cidr with _ | entry
  · rw [hl] at h
    injection h with h1 h2
    exact h2.symm
  · rw [hl] at h
    simp only at h
    rcases hk : remove_entry kres s.isV4 s.kernel cidr with e2 | k1
    · rw [hk] at h
      injection h with h1 h2
      exact h2.symm
    · rw [hk] at h
      injection h with h1 h2
      cases h1

theorem remove_stored_ok_effect (kres : Except String Unit) (s : LpmStoreState)
    (cidr : NormalizedCidr) (old : StoredEntry) (s' : LpmStoreState)
    (h : remove_stored kres s cidr = (.ok old, s')) :
    lookupA s.items cidr = some old ∧ lookupA s'.items cidr = none ∧
    ∃ key, lpmKeyOf s.isV4 cidr = some key ∧ lookupA s'.kernel key = none := by
  unfold remove_stored at h
  rcases hl : lookupA s.items cidr with _ | entry
  · rw [hl] at h
    injection h with h1 h2
    cases h1
  · rw [hl] at h
    simp only at h
    rcases hk : remove_entry kres s.isV4 s.kernel cidr with e2 | k1
    · rw [hk] at h
      injection h with h1 h2
      cases h1
    · rw [hk] at h
      injection h with h1 h2
      injection h1 with h1
      subst h1
      subst h2
      refine ⟨rfl, ?_, ?_⟩
      · show lookupA (eraseA s.items cidr) cidr = none
        rw [lookupA_eraseA, if_pos rfl]
      · unfold remove_entry at hk
        rcases hkey : lpmKeyOf s.isV4 cidr with _ | key
        · rw [hkey] at hk
          cases hk
        · rw [hkey] at hk
          rcases kres with m | u
          · cases hk
          · injection hk with hk
            subst hk
            refine ⟨key, rfl, ?_⟩
            show lookupA (eraseA s.kernel key) key = none
            rw [lookupA_eraseA, if_pos rfl]

/-- C4: every LPM store mutation is fail-atomic — on an error return both the
userspace map and the kernel map are exactly as before the call; on success
both sides reflect the mutation: `add` and the vacant `upsert` path insert
into both maps, `remove` deletes from both, and `update` and the occupied
`upsert` path rewrite the kernel entry exactly when the tag id changed
(when it is unchanged the kernel value is already the tag id, so the source
performs no kernel write), matching the source. -/
theorem lpm_ops_fail_atomic :
    (∀ kres s cidr e err s', add_stored kres s cidr e = (.error err, s') → s' = s) ∧
    (∀ kres s cidr e s', add_stored kres s cidr e = (.ok (), s') →
      lookupA s'.items cidr = some e ∧
      ∃ key, lpmKeyOf s.isV4 cidr = some key ∧ lookupA s'.kernel key = some e.tag_id) ∧
    (∀ kres s cidr e err s', update_stored kres s cidr e = (.error err, s') → s' = s) ∧
    (∀ kres s cidr e old s', update_stored kres s cidr e = (.ok old, s') →
      lookupA s.items cidr = some old ∧ lookupA s'.items cidr = some e ∧
      (old.tag_id ≠ e.tag_id →
        ∃ key, lpmKeyOf s.isV4 cidr = some key ∧ lookupA s'.kernel key = some e.tag_id)) ∧
    (∀ kres s cidr e err s', add_or_update_stored kres s cidr e = (.error err, s') → s' = s) ∧
    (∀ kres s cidr e old s', add_or_update_stored kres s cidr e = (.ok old, s') →
      lookupA s'.items cidr = some e ∧ old = lookupA s.items cidr ∧
      ((old = none ∨ ∃ o, old = some o ∧ o.tag_id ≠ e.tag_id) →
        ∃ key, lpmKeyOf s.isV4 cidr = some key ∧ lookupA s'.kernel key = some e.tag_id)) ∧
    (∀ kres s cidr err s', remove_stored kres s cidr = (.error err, s') → s' = s) ∧
    (∀ kres s cidr old s', remove_stored kres s cidr = (.ok old, s') →
      lookupA s.items cidr = some old ∧ lookupA s'.items cidr = none ∧
      ∃ key, lpmKeyOf s.isV4 cidr = some key ∧ lookupA s'.kernel key = none) :=
  ⟨add_stored_error_frame, add_stored_ok_effect, update_stored_error_frame,
   update_stored_ok_effect, add_or_update_stored_error_frame, add_or_update_stored_ok_effect,
   remove_stored_error_frame, remove_stored_ok_effect⟩

/-- C9: at max capacity, `add_stored` returns the "map full" `Econflict`
error for every cidr — present or absent — because the capacity check
precedes the duplicate-key check; by contrast `add_or_update_stored` at max
capacity rejects with "map full" only when the cidr is absent, and with a
successful kernel call still updates when the cidr is present. -/
theorem add_stored_full_conflict :
    (∀ kres s cidr e, s.items.length ≥ s.maxEntries →
      add_stored kres s cidr e = (.error (mapFullError s.maxEntries), s)) ∧
    (∀ kres s cidr e, s.items.length ≥ s.maxEntries → lookupA s.items cidr = none →
      add_or_update_stored kres s cidr e = (.error (mapFullError s.maxEntries), s)) ∧
    (∀ s cidr e old, s.items.length ≥ s.maxEntries → lookupA s.items cidr = some old →
      (lpmKeyOf s.isV4 cidr).isSome = true →
      ∃ s', add_or_update_stored (.ok ()) s cidr e = (.ok (some old), s') ∧
        lookupA s'.items cidr = some e) := by
  refine ⟨?_, ?_, ?_⟩
  · intro kres s cidr e hcap
    unfold add_stored
    rw [if_pos hcap]
  · intro kres s cidr e hcap habs
    unfold add_or_update_stored
    rw [if_pos ⟨hcap, habs⟩]
  · intro s cidr e old hcap hpres hkey
    have hup : lookupA (updateA s.items cidr (fun _ => e)) cidr = some e := by
      rw [lookupA_updateA, if_pos rfl, hpres]
      rfl
    have hcond : ¬(s.items.length ≥ s.maxEntries ∧ lookupA s.items cidr = none) := by
      intro ⟨_, habs⟩
      rw [hpres] at habs
      cases habs
    rcases hkopt : lpmKeyOf s.isV4 cidr with _ | key
    · rw [hkopt] at hkey
      cases hkey
    · have hins : insert_entry (.ok ()) s.isV4 s.kernel cidr e = .ok (insertA s.kernel key e.tag_id) := by
        unfold insert_entry
        rw [hkopt]
      by_cases htag : old.tag_id ≠ e.tag_id
      · refine ⟨{ s with kernel := insertA s.kernel key e.tag_id,
                         items := updateA s.items cidr (fun _ => e) }, ?_, hup⟩
        unfold add_or_update_stored
        rw [if_neg hcond, hpres]
        simp only [if_pos htag, hins]
      · refine ⟨{ s with items := updateA s.items cidr (fun _ => e) }, ?_, hup⟩
        unfold add_or_update_stored
        rw [if_neg hcond, hpres]
        simp only [if_neg htag]

theorem lookupA_filter_of_true {α β : Type} [DecidableEq α] {l : List (α × β)} {k : α} {v : β}
    (p : α × β → Bool) (h : lookupA l k = some v) (hp : p (k, v) = true) :
    lookupA (l.filter p) k = some v := by
  induction l with
  | nil => cases h
  | cons q rest ih =>
    obtain ⟨a, b⟩ := q
    rw [lookupA_cons] at h
    by_cases ha : a = k
    · subst ha
      rw [if_pos rfl] at h
      injection h with h
      subst h
      rw [List.filter_cons, if_pos hp, lookupA_cons, if_pos rfl]
    · rw [if_neg ha] at h
      rw [List.filter_cons]
      by_cases hq : p (a, b) = true
      · rw [if_pos hq, lookupA_cons, if_neg ha]
        exact ih h
      · rw [if_neg hq]
        exact ih h

theorem expired_eq_false_iff (e : StoredEntry) (now : Nat) :
    e.expired now = false ↔ (e.expiration = 0 ∨ now < e.expiration) := by
  unfold StoredEntry.expired
  by_cases h0 : e.expiration = 0
  · simp [h0]
  · rw [if_neg h0, decide_eq_false_iff_not, not_le]
    constructor
    · intro h
      exact Or.inr h
    · intro h
      rcases h with h | h
      · exact absurd h h0
      · exact h

theorem sweeper_tick_filter (now : Nat) (kok : NormalizedCidr → Except String Unit)
    (isV4 : Bool) (hk : ∀ c, kok c = .ok ()) :
    ∀ (items : List (NormalizedCidr × StoredEntry)) (kernel : List ((Nat × Nat) × Nat)),
    (∀ p ∈ items, (lpmKeyOf isV4 p.1).isSome = true) →
    (sweeper_tick now kok isV4 items kernel).1 = items.filter (fun p => !(p.2.expired now)) ∧
    (sweeper_tick now kok isV4 items kernel).2.2 =
      (items.filter (fun p => p.2.expired now)).map (fun p => p.2.tag_id) := by
  intro items
  induction items with
  | nil =>
    intro kernel _
    exact ⟨rfl, rfl⟩
  | cons q rest ih =>
    intro kernel hfam
    obtain ⟨cidr, e⟩ := q
    have hfam' : ∀ p ∈ rest, (lpmKeyOf isV4 p.1).isSome = true := by
      intro p hp
      exact hfam p (List.mem_cons_of_mem _ hp)
    rcases hkey : lpmKeyOf isV4 cidr with _ | key
    · have := hfam (cidr, e) (List.mem_cons_self _ _)
      rw [hkey] at this
      cases this
    · have hrem : remove_entry (kok cidr) isV4 kernel cidr = .ok (eraseA kernel key) := by
        unfold remove_entry
        rw [hkey, hk cidr]
      by_cases hexp : e.expired now = true
      · have hstep : sweeper_tick now kok isV4 ((cidr, e) :: rest) kernel =
            ((sweeper_tick now kok isV4 rest (eraseA kernel key)).1,
             (sweeper_tick now kok isV4 rest (eraseA kernel key)).2.1,
             e.tag_id :: (sweeper_tick now kok isV4 rest (eraseA kernel key)).2.2) := by
          simp only [sweeper_tick]
          rw [if_pos hexp, hrem]
        rw [hstep, List.filter_cons, List.filter_cons]
        simp only [hexp, Bool.not_true, if_false, if_true, Bool.false_eq_true, List.map_cons]
        obtain ⟨ih1, ih2⟩ := ih (eraseA kernel key) hfam'
        exact ⟨ih1, by rw [ih2]⟩
      · rw [Bool.not_eq_true] at hexp
        have hstep : sweeper_tick now kok isV4 ((cidr, e) :: rest) kernel =
            ((cidr, e) :: (sweeper_tick now kok isV4 rest kernel).1,
             (sweeper_tick now kok isV4 rest kernel).2.1,
             (sweeper_tick now kok isV4 rest kernel).2.2) := by
          simp only [sweeper_tick]
          rw [hexp]
          simp only [Bool.false_eq_true, if_false]
        rw [hstep, List.filter_cons, List.filter_cons]
        simp only [hexp, Bool.not_false, if_true, Bool.false_eq_true, if_false]
        obtain ⟨ih1, ih2⟩ := ih kernel hfam'
        exact ⟨by rw [ih1], ih2⟩

/-- C3: after one sweeper tick at time `T` whose kernel removals all succeed
(`kok` constantly ok, all keys extractable), no entry with
`0 < expiration ≤ T` remains in the userspace map; every entry with
`expiration = 0` or `expiration > T` is retained unchanged; and the
tag-release channel receives exactly the `tag_id` of each removed entry once,
in iteration order. -/
theorem sweeper_tick_spec (now : Nat) (kok : NormalizedCidr → Except String Unit)
    (isV4 : Bool) (items : List (NormalizedCidr × StoredEntry))
    (kernel : List ((Nat × Nat) × Nat))
    (hk : ∀ c, kok c = .ok ())
    (hfam : ∀ p ∈ items, (lpmKeyOf isV4 p.1).isSome = true) :
    (∀ k e, lookupA (sweeper_tick now kok isV4 items kernel).1 k = some e →
      ¬(0 < e.expiration ∧ e.expiration ≤ now)) ∧
    (∀ k e, lookupA items k = some e → (e.expiration = 0 ∨ now < e.expiration) →
      lookupA (sweeper_tick now kok isV4 items kernel).1 k = some e) ∧
    (sweeper_tick now kok isV4 items kernel).2.2 =
      (items.filter (fun p => p.2.expired now)).map (fun p => p.2.tag_id) := by
  obtain ⟨h1, h2⟩ := sweeper_tick_filter now kok isV4 hk items kernel hfam
  refine ⟨?_, ?_, h2⟩
  · intro k e hl
    rw [h1] at hl
    have hm := lookupA_mem hl
    rw [List.mem_filter] at hm
    have hexp : e.expired now = false := by
      have := hm.2
      simp only [Bool.not_eq_true'] at this
      exact this
    rw [expired_eq_false_iff] at hexp
    intro ⟨hpos, hle⟩
    rcases hexp with h0 | hgt
    · omega
    · omega
  · intro k e hl he
    rw [h1]
    apply lookupA_filter_of_true _ hl
    have hexp : e.expired now = false := (expired_eq_false_iff e now).mpr he
    simp only [hexp, Bool.not_false]

def cexCidrA : NormalizedCidr := ⟨IpNet.v4 0 8, by decide⟩

def cexCidrB : NormalizedCidr := ⟨IpNet.v4 256 24, by decide⟩

def cexItems : List (NormalizedCidr × StoredEntry) :=
  [(cexCidrA, { creation := 1, tag_id := 7, expiration := 5 }),
   (cexCidrB, { creation := 2, tag_id := 8, expiration := 0 })]

/-- C3 (witness): the sweeper theorem at a concrete two-entry store, one
entry expired at time 10 and one permanent. -/
theorem sweeper_tick_spec_witness :
    (∀ k e, lookupA (sweeper_tick 10 (fun _ => .ok ()) true cexItems []).1 k = some e →
      ¬(0 < e.expiration ∧ e.expiration ≤ 10)) ∧
    (∀ k e, lookupA cexItems k = some e → (e.expiration = 0 ∨ 10 < e.expiration) →
      lookupA (sweeper_tick 10 (fun _ => .ok ()) true cexItems []).1 k = some e) ∧
    (sweeper_tick 10 (fun _ => .ok ()) true cexItems []).2.2 =
      (cexItems.filter (fun p => p.2.expired 10)).map (fun p => p.2.tag_id) :=
  sweeper_tick_spec 10 (fun _ => .ok ()) true cexItems [] (fun _ => rfl) (by decide)

/-! ## Firewall service: set reconciliation (src/couic/src/firewall/service.rs)

`update_lpm_store` reconciles one (policy, family) store against the target
map parsed from the on-disk set files.  The target is a list of
`(cidr, Entry)` pairs in the `HashMap`'s (arbitrary) iteration order; the
claims quantify over every order.  Kernel syscalls are taken to succeed
(`kOk`) — the reconciliation claims presuppose successful kernel calls, as
the sweeper claim does explicitly. -/

structure Entry where
  creation : Nat
  cidr : NormalizedCidr
  tag : Option String
  expiration : Nat
deriving DecidableEq

structure SetCounter where
  updated : Nat
  removed : Nat
  created : Nat
deriving DecidableEq, Repr

structure SvcState where
  store : LpmStoreState
  reg : TagRegistryInner
deriving DecidableEq

def SET_EXTENSION : String := ".couic"

/-- `str::ends_with`. -/
def strEndsA (s pat : String) : Bool := headMatch pat.data.reverse s.data.reverse

def kOk : Except String Unit := .ok ()

/-- The reconciliation filter: the stored entry's tag resolves in the
registry and ends with `SET_EXTENSION`. -/
def setOriginB (reg : TagRegistryInner) (tid : Nat) : Bool :=
  match get_tag reg tid with
  | some s => strEndsA s SET_EXTENSION
  | none => false

def tagOf (ent : Entry) : String := ent.tag.getD ""

/-- `FirewallService::entry_to_stored`: acquire the tag, build the stored
entry. -/
def entry_to_stored (reg : TagRegistryInner) (ent : Entry) :
    Except CompositeError (StoredEntry × TagRegistryInner) :=
  match acquire (tagOf ent) reg with
  | .ok (tid, reg') =>
    .ok ({ creation := ent.creation, tag_id := tid, expiration := ent.expiration }, reg')
  | .error _ => .error (CompositeError.new .Einternal ("Tag acquisition error"))

/-- Release the prior entry's tag when the upsert replaced one. -/
def releaseOpt (o : Option StoredEntry) (reg : TagRegistryInner) : TagRegistryInner :=
  match o with
  | some old => release old.tag_id reg
  | none => reg

/-- The target loop of `update_lpm_store` (step 5 of reconciliation). -/
def ulsPhase1 (target : List (NormalizedCidr × Entry)) (svc : SvcState)
    (sm : List (NormalizedCidr × StoredEntry)) (counter : SetCounter) :
    Except CompositeError Unit × SvcState × List (NormalizedCidr × StoredEntry) × SetCounter :=
  match target with
  | [] => (.ok (), svc, sm, counter)
  | (tk, ent) :: rest =>
    match lookupA sm tk with
    | some ex =>
      let ttag := tagOf ent
      let etag := (get_tag svc.reg ex.tag_id).getD ""
      if ttag ≠ etag ∨ ent.expiration ≠ ex.expiration then
        match entry_to_stored svc.reg ent with
        | .error e => (.error e, svc, sm, counter)
        | .ok (ns, reg1) =>
          match update_stored kOk svc.store tk ns with
          | (.ok old, store1) =>
            ulsPhase1 rest { store := store1, reg := release old.tag_id reg1 } (eraseA sm tk)
              { counter with updated := counter.updated + 1 }
          | (.error e, store1) =>
            (.error e, { store := store1, reg := release ns.tag_id reg1 }, sm, counter)
      else
        ulsPhase1 rest svc (eraseA sm tk) counter
    | none =>
      match entry_to_stored svc.reg ent with
      | .error e => (.error e, svc, sm, counter)
      | .ok (ns, reg1) =>
        match add_or_update_stored kOk svc.store tk ns with
        | (.ok oldOpt, store1) =>
          ulsPhase1 rest { store := store1, reg := releaseOpt oldOpt reg1 }
            sm { counter with created := counter.created + 1 }
        | (.error e, store1) =>
          (.error e, { store := store1, reg := release ns.tag_id reg1 }, sm, counter)

/-- The removal loop of `update_lpm_store` (step 6; failures are logged and
skipped). -/
def ulsPhase2 (sm : List (NormalizedCidr × StoredEntry)) (svc : SvcState)
    (counter : SetCounter) : SvcState × SetCounter :=
  match sm with
  | [] => (svc, counter)
  | (k, stored) :: rest =>
    match remove_stored kOk svc.store k with
    | (.ok _, store1) =>
      ulsPhase2 rest { store := store1, reg := release stored.tag_id svc.reg }
        { counter with removed := counter.removed + 1 }
    | (.error _, store1) =>
      ulsPhase2 rest { svc with store := store1 } counter

def update_lpm_store (svc : SvcState) (target : List (NormalizedCidr × Entry)) :
    Except CompositeError SetCounter × SvcState :=
  match ulsPhase1 target svc (svc.store.items.filter (fun p => setOriginB svc.reg p.2.tag_id))
      { updated := 0, removed := 0, created := 0 } with
  | (.ok _, svc1, sm1, c1) =>
    let r := ulsPhase2 sm1 svc1 c1
    (.ok r.2, r.1)
  | (.error e, svc1, _, _) => (.error e, svc1)

/-! ### Key-frame lemmas: each store mutation touches only its own key -/

theorem update_stored_items_frame (kres : Except String Unit) (s : LpmStoreState)
    (cidr : NormalizedCidr) (e : StoredEntry) (k : NormalizedCidr) (hk : cidr ≠ k) :
    lookupA (update_stored kres s cidr e).2.items k = lookupA s.items k := by
  unfold update_stored
  rcases hl : lookupA s.items cidr with _ | existing
  · rfl
  · simp only
    by_cases htag : existing.tag_id ≠ e.tag_id
    · rw [if_pos htag]
      rcases insert_entry kres s.isV4 s.kernel cidr e with e2 | k1
      · rfl
      · show lookupA (updateA s.items cidr (fun _ => e)) k = lookupA s.items k
        rw [lookupA_updateA, if_neg hk]
    · rw [if_neg htag]
      show lookupA (updateA s.items cidr (fun _ => e)) k = lookupA s.items k
      rw [lookupA_updateA, if_neg hk]

theorem add_or_update_stored_items_frame (kres : Except String Unit) (s : LpmStoreState)
    (cidr : NormalizedCidr) (e : StoredEntry) (k : NormalizedCidr) (hk : cidr ≠ k) :
    lookupA (add_or_update_stored kres s cidr e).2.items k = lookupA s.items k := by
  unfold add_or_update_stored
  by_cases hcap : s.items.length ≥ s.maxEntries ∧ lookupA s.items cidr = none
  · rw [if_pos hcap]
  · rw [if_neg hcap]
    rcases hl : lookupA s.items cidr with _ | old
    · simp only
      rcases insert_entry kres s.isV4 s.kernel cidr e with e2 | k1
      · rfl
      · show lookupA (insertA s.items cidr e) k = lookupA s.items k
        rw [lookupA_insertA_ne _ _ _ _ hk]
    · simp only
      by_cases htag : old.tag_id ≠ e.tag_id
      · rw [if_pos htag]
        rcases insert_entry kres s.isV4 s.kernel cidr e with e2 | k1
        · rfl
        · show lookupA (updateA s.items cidr (fun _ => e)) k = lookupA s.items k
          rw [lookupA_updateA, if_neg hk]
      · rw [if_neg htag]
        show lookupA (updateA s.items cidr (fun _ => e)) k = lookupA s.items k
        rw [lookupA_updateA, if_neg hk]

theorem remove_stored_items_frame (kres : Except String Unit) (s : LpmStoreState)
    (cidr : NormalizedCidr) (k : NormalizedCidr) (hk : cidr ≠ k) :
    lookupA (remove_stored kres s cidr).2.items k = lookupA s.items k := by
  unfold remove_stored
  rcases hl : lookupA s.items cidr with _ | entry
  · rfl
  · simp only
    rcases remove_entry kres s.isV4 s.kernel cidr with e2 | k1
    · rfl
    · show lookupA (eraseA s.items cidr) k = lookupA s.items k
      rw [lookupA_eraseA, if_neg hk]

theorem ulsPhase1_frame (k : NormalizedCidr) :
    ∀ (target : List (NormalizedCidr × Entry)) (svc : SvcState)
      (sm : List (NormalizedCidr × StoredEntry)) (c : SetCounter),
    k ∉ target.map Prod.fst →
    lookupA (ulsPhase1 target svc sm c).2.1.store.items k = lookupA svc.store.items k ∧
    lookupA (ulsPhase1 target svc sm c).2.2.1 k = lookupA sm k := by
  intro target
  induction target with
  | nil =>
    intro svc sm c _
    exact ⟨rfl, rfl⟩
  | cons q rest ih =>
    intro svc sm c hnt
    obtain ⟨tk, ent⟩ := q
    have hne : tk ≠ k := by
      intro hq
      exact hnt (by rw [List.map_cons, hq]; exact List.mem_cons_self _ _)
    have hrest : k ∉ rest.map Prod.fst := by
      intro hq
      exact hnt (by rw [List.map_cons]; exact List.mem_cons_of_mem _ hq)
    have hsm : ∀ sm' : List (NormalizedCidr × StoredEntry),
        lookupA (eraseA sm' tk) k = lookupA sm' k := by
      intro sm'
      rw [lookupA_eraseA, if_neg hne]
    simp only [ulsPhase1]
    rcases hl : lookupA sm tk with _ | ex
    · simp only
      rcases hE : entry_to_stored svc.reg ent with e | nsr
      · exact ⟨rfl, rfl⟩
      · obtain ⟨ns, reg1⟩ := nsr
        simp only
        rcases hU : add_or_update_stored kOk svc.store tk ns with ⟨res, store1⟩
        rcases res with e | oldOpt
        · simp only
          have hfr : store1 = svc.store :=
            add_or_update_stored_error_frame kOk svc.store tk ns e store1 hU
          constructor
          · show lookupA store1.items k = lookupA svc.store.items k
            rw [hfr]
          · trivial
        · simp only
          obtain ⟨ih1, ih2⟩ := ih { store := store1, reg := releaseOpt oldOpt reg1 }
            sm { c with created := c.created + 1 } hrest
          refine ⟨?_, ih2⟩
          rw [ih1]
          show lookupA store1.items k = lookupA svc.store.items k
          have := add_or_update_stored_items_frame kOk svc.store tk ns k hne
          rw [hU] at this
          exact this
    · simp only
      by_cases hdiff : tagOf ent ≠ (get_tag svc.reg ex.tag_id).getD "" ∨
          ent.expiration ≠ ex.expiration
      · rw [if_pos hdiff]
        rcases hE : entry_to_stored svc.reg ent with e | nsr
        · exact ⟨rfl, rfl⟩
        · obtain ⟨ns, reg1⟩ := nsr
          simp only
          rcases hU : update_stored kOk svc.store tk ns with ⟨res, store1⟩
          rcases res with e | old
          · simp only
            have hfr : store1 = svc.store :=
              update_stored_error_frame kOk svc.store tk ns e store1 hU
            constructor
            · show lookupA store1.items k = lookupA svc.store.items k
              rw [hfr]
            · trivial
          · simp only
            obtain ⟨ih1, ih2⟩ := ih { store := store1, reg := release old.tag_id reg1 }
              (eraseA sm tk) { c with updated := c.updated + 1 } hrest
            refine ⟨?_, ?_⟩
            · rw [ih1]
              show lookupA store1.items k = lookupA svc.store.items k
              have := update_stored_items_frame kOk svc.store tk ns k hne
              rw [hU] at this
              exact this
            · rw [ih2, hsm]
      · rw [if_neg hdiff]
        obtain ⟨ih1, ih2⟩ := ih svc (eraseA sm tk) c hrest
        exact ⟨ih1, by rw [ih2, hsm]⟩

theorem ulsPhase2_frame (k : NormalizedCidr) :
    ∀ (sm : List (NormalizedCidr × StoredEntry)) (svc : SvcState) (c : SetCounter),
    lookupA sm k = none →
    lookupA (ulsPhase2 sm svc c).1.store.items k = lookupA svc.store.items k := by
  intro sm
  induction sm with
  | nil =>
    intro svc c _
    rfl
  | cons q rest ih =>
    intro svc c hnone
    obtain ⟨k0, stored⟩ := q
    rw [lookupA_cons] at hnone
    by_cases hk0 : k0 = k
    · rw [if_pos hk0] at hnone
      cases hnone
    · rw [if_neg hk0] at hnone
      simp only [ulsPhase2]
      rcases hR : remove_stored kOk svc.store k0 with ⟨res, store1⟩
      have hframe : lookupA store1.items k = lookupA svc.store.items k := by
        have := remove_stored_items_frame kOk svc.store k0 k hk0
        rw [hR] at this
        exact this
      rcases res with e | old
      · simp only
        rw [ih { svc with store := store1 } c hnone]
        exact hframe
      · simp only
        rw [ih { store := store1, reg := release stored.tag_id svc.reg }
          { c with removed := c.removed + 1 } hnone]
        exact hframe

theorem lookupA_filter_none {α β : Type} [DecidableEq α] {l : List (α × β)} {k : α} {v : β}
    (p : α × β → Bool) (hnd : keysNodup l) (h : lookupA l k = some v) (hp : p (k, v) = false) :
    lookupA (l.filter p) k = none := by
  induction l with
  | nil => cases h
  | cons q rest ih =>
    obtain ⟨a, b⟩ := q
    have hcons : (a :: keysOf rest).Nodup := hnd
    have hnd' : keysNodup rest := (List.nodup_cons.mp hcons).2
    rw [lookupA_cons] at h
    by_cases ha : a = k
    · subst ha
      rw [if_pos rfl] at h
      injection h with h
      subst h
      rw [List.filter_cons, if_neg (by rw [hp]; simp)]
      apply (lookupA_eq_none_iff _ _).mpr
      intro hmem
      have hmem' : a ∈ keysOf rest := by
        unfold keysOf at hmem ⊢
        obtain ⟨q, hq, hqa⟩ := List.mem_map.mp hmem
        exact List.mem_map.mpr ⟨q, List.mem_of_mem_filter hq, hqa⟩
      exact (List.nodup_cons.mp hcons).1 hmem'
    · rw [if_neg ha] at h
      rw [List.filter_cons]
      by_cases hq : p (a, b) = true
      · rw [if_pos hq, lookupA_cons, if_neg ha]
        exact ih hnd' h
      · rw [if_neg hq]
        exact ih hnd' h

/-- C1 (amended): reconciliation never removes a user-origin entry and never
touches one whose CIDR is not a key of the target set: for any entry whose
tag does not resolve to a `.couic` name, if its CIDR is absent from the
target, its stored value is identical before and after `update_lpm_store`
(whether the run succeeds or aborts).  When the target does contain the same
CIDR, the user entry is replaced by the set entry (see the counterexample). -/
theorem reconcile_user_frame (svc : SvcState) (target : List (NormalizedCidr × Entry))
    (k : NormalizedCidr) (e : StoredEntry)
    (hnd : keysNodup svc.store.items)
    (hk : lookupA svc.store.items k = some e)
    (huser : setOriginB svc.reg e.tag_id = false)
    (hnt : k ∉ target.map Prod.fst) :
    lookupA (update_lpm_store svc target).2.store.items k = some e := by
  have hsm0 : lookupA (svc.store.items.filter (fun p => setOriginB svc.reg p.2.tag_id)) k =
      none :=
    lookupA_filter_none _ hnd hk huser
  unfold update_lpm_store
  obtain ⟨hf1, hf2⟩ := ulsPhase1_frame k target svc
    (svc.store.items.filter (fun p => setOriginB svc.reg p.2.tag_id))
    { updated := 0, removed := 0, created := 0 } hnt
  rcases hres : ulsPhase1 target svc
      (svc.store.items.filter (fun p => setOriginB svc.reg p.2.tag_id))
      { updated := 0, removed := 0, created := 0 } with ⟨res, svc1, sm1, c1⟩
  rw [hres] at hf1 hf2
  simp only at hf1 hf2
  rcases res with err | u
  · simp only
    rw [hf1, hk]
  · simp only
    have hsm1 : lookupA sm1 k = none := by rw [hf2, hsm0]
    rw [ulsPhase2_frame k sm1 svc1 c1 hsm1, hf1, hk]

def cexStore : LpmStoreState :=
  { isV4 := true, maxEntries := 16,
    items := [(cexCidrA, { creation := 10, tag_id := 1, expiration := 0 })],
    kernel := [((8, 0), 1)] }

def cexReg2 : TagRegistryInner :=
  { next_id := 2, by_id := [(1, { name := "ssh", refcount := 1 })], by_name := [("ssh", 1)] }

def cexSvc : SvcState := { store := cexStore, reg := cexReg2 }

def cexTarget : List (NormalizedCidr × Entry) :=
  [(cexCidrA, { creation := 99, cidr := cexCidrA, tag := some (".setA.couic"), expiration := 0 })]

def cexTargetB : List (NormalizedCidr × Entry) :=
  [(cexCidrB, { creation := 99, cidr := cexCidrB, tag := some (".setA.couic"), expiration := 0 })]

/-- C1 (counterexample): a user-origin entry (tag "ssh") at a CIDR that the
target set also contains is replaced by the set entry — its (creation,
tag_id, expiration) change from (10, 1, 0) to (99, 2, 0) — so reconciliation
does modify a user-origin entry in that case. -/
theorem reconcile_overwrites_user_cex :
    setOriginB cexSvc.reg 1 = false ∧
    lookupA cexSvc.store.items cexCidrA =
      some { creation := 10, tag_id := 1, expiration := 0 } ∧
    lookupA (update_lpm_store cexSvc cexTarget).2.store.items cexCidrA =
      some { creation := 99, tag_id := 2, expiration := 0 } := by
  refine ⟨by decide, by decide, by decide⟩

/-- C1 (witness): the frame theorem at a concrete store whose user entry's
CIDR is absent from the target. -/
theorem reconcile_user_frame_witness :
    lookupA (update_lpm_store cexSvc cexTargetB).2.store.items cexCidrA =
      some { creation := 10, tag_id := 1, expiration := 0 } :=
  reconcile_user_frame cexSvc cexTargetB cexCidrA
    { creation := 10, tag_id := 1, expiration := 0 }
    (by show (keysOf cexSvc.store.items).Nodup; decide) (by decide) (by decide) (by decide)

/-! ### Reference counting between the store and the registry (for C6) -/

def countRefs (items : List (NormalizedCidr × StoredEntry)) (id : Nat) : Nat :=
  (items.filter (fun p => p.2.tag_id == id)).length

theorem mem_eraseA {α β : Type} [DecidableEq α] {l : List (α × β)} {k : α} {p : α × β}
    (h : p ∈ eraseA l k) : p ∈ l ∧ p.1 ≠ k := by
  induction l with
  | nil => cases h
  | cons q rest ih =>
    by_cases hq : q.1 = k
    · rw [show eraseA (q :: rest) k = eraseA rest k by simp [eraseA, hq]] at h
      obtain ⟨h1, h2⟩ := ih h
      exact ⟨List.mem_cons_of_mem _ h1, h2⟩
    · rw [show eraseA (q :: rest) k = q :: eraseA rest k by simp [eraseA, hq]] at h
      rcases List.mem_cons.mp h with h1 | h1
      · subst h1
        exact ⟨List.mem_cons_self _ _, hq⟩
      · obtain ⟨h2, h3⟩ := ih h1
        exact ⟨List.mem_cons_of_mem _ h2, h3⟩

theorem lookupA_of_mem_nodup {α β : Type} [DecidableEq α] {l : List (α × β)} {k : α} {v : β}
    (hnd : keysNodup l) (h : (k, v) ∈ l) : lookupA l k = some v := by
  induction l with
  | nil => cases h
  | cons q rest ih =>
    obtain ⟨a, b⟩ := q
    have hcons : (a :: keysOf rest).Nodup := hnd
    rcases List.mem_cons.mp h with h1 | h1
    · injection h1 with h1 h2
      subst h1
      subst h2
      rw [lookupA_cons, if_pos rfl]
    · have ha : a ≠ k := by
        intro hq
        subst hq
        exact (List.nodup_cons.mp hcons).1
          (List.mem_map.mpr ⟨(a, v), h1, rfl⟩)
      rw [lookupA_cons, if_neg ha]
      exact ih (List.nodup_cons.mp hcons).2 h1

theorem two_le_filter_length {α : Type} {l : List α} {a b : α} (p : α → Bool)
    (ha : a ∈ l) (hb : b ∈ l) (hne : a ≠ b) (hpa : p a = true) (hpb : p b = true) :
    2 ≤ (l.filter p).length := by
  have ha' : a ∈ l.filter p := List.mem_filter.mpr ⟨ha, hpa⟩
  have hb' : b ∈ l.filter p := List.mem_filter.mpr ⟨hb, hpb⟩
  rcases hf : l.filter p with _ | ⟨x, _ | ⟨y, tl⟩⟩
  · rw [hf] at ha'
    cases ha'
  · rw [hf] at ha' hb'
    rw [List.mem_singleton] at ha' hb'
    exact absurd (ha'.trans hb'.symm) hne
  · simp

theorem one_le_countRefs {items : List (NormalizedCidr × StoredEntry)}
    {k : NormalizedCidr} {s : StoredEntry}
    (h : (k, s) ∈ items) : 1 ≤ countRefs items s.tag_id := by
  have : (k, s) ∈ items.filter (fun p => p.2.tag_id == s.tag_id) :=
    List.mem_filter.mpr ⟨h, by simp⟩
  unfold countRefs
  exact List.length_pos.mpr (fun hq => by rw [hq] at this; cases this)

theorem two_le_countRefs {items : List (NormalizedCidr × StoredEntry)}
    {k k' : NormalizedCidr} {s s' : StoredEntry}
    (h : (k, s) ∈ items) (h' : (k', s') ∈ items) (hne : k ≠ k')
    (htag : s.tag_id = s'.tag_id) : 2 ≤ countRefs items s.tag_id := by
  apply two_le_filter_length (fun p => p.2.tag_id == s.tag_id) h h'
  · intro hq
    injection hq with hq1 hq2
    exact hne hq1
  · simp
  · simp [htag]

theorem countRefs_updateA {items : List (NormalizedCidr × StoredEntry)}
    {k : NormalizedCidr} {old : StoredEntry} (ns : StoredEntry) (id : Nat)
    (hnd : keysNodup items) (h : lookupA items k = some old) :
    countRefs (updateA items k (fun _ => ns)) id + (if old.tag_id = id then 1 else 0) =
      countRefs items id + (if ns.tag_id = id then 1 else 0) := by
  induction items with
  | nil => cases h
  | cons q rest ih =>
    obtain ⟨a, b⟩ := q
    have hcons : (a :: keysOf rest).Nodup := hnd
    have hnd' : keysNodup rest := (List.nodup_cons.mp hcons).2
    rw [lookupA_cons] at h
    by_cases ha : a = k
    · subst ha
      rw [if_pos rfl] at h
      injection h with h
      subst h
      have hnotin : lookupA rest a = none := by
        apply (lookupA_eq_none_iff _ _).mpr
        exact (List.nodup_cons.mp hcons).1
      have hfix : updateA rest a (fun _ => ns) = rest := by
        clear ih hnd hcons
        induction rest with
        | nil => rfl
        | cons w tl ihw =>
          rw [lookupA_cons] at hnotin
          by_cases hw : w.1 = a
          · rw [if_pos hw] at hnotin
            cases hnotin
          · rw [if_neg hw] at hnotin
            have hnd2 : keysNodup tl := by
              have : (w.1 :: keysOf tl).Nodup := hnd'
              exact (List.nodup_cons.mp this).2
            simp only [updateA, List.map_cons, hw, if_false]
            rw [show List.map (fun p => if p.1 = a then (p.1, ns) else p) tl =
                updateA tl a (fun _ => ns) from rfl]
            rw [ihw hnd2 hnotin]
      have hhead : updateA ((a, b) :: rest) a (fun _ => ns) =
          (a, ns) :: updateA rest a (fun _ => ns) := by
        simp [updateA]
      rw [hhead, hfix]
      unfold countRefs
      rw [List.filter_cons, List.filter_cons]
      by_cases hb : b.tag_id = id <;> by_cases hn : ns.tag_id = id <;>
        simp [hb, hn] <;> omega
    · rw [if_neg ha] at h
      have step : countRefs (updateA rest k (fun _ => ns)) id +
          (if old.tag_id = id then 1 else 0) =
          countRefs rest id + (if ns.tag_id = id then 1 else 0) := ih hnd' h
      show countRefs ((if a = k then (a, ns) else (a, b)) :: updateA rest k (fun _ => ns)) id +
        _ = _
      rw [if_neg ha]
      unfold countRefs
      rw [List.filter_cons, List.filter_cons]
      unfold countRefs at step
      by_cases hb : b.tag_id = id <;> simp [hb] <;> omega

theorem countRefs_append_single (items : List (NormalizedCidr × StoredEntry))
    (k : NormalizedCidr) (ns : StoredEntry) (id : Nat) :
    countRefs (items ++ [(k, ns)]) id =
      countRefs items id + (if ns.tag_id = id then 1 else 0) := by
  unfold countRefs
  rw [List.filter_append, List.length_append, List.filter_cons]
  by_cases hn : ns.tag_id = id <;> simp [hn]

theorem countRefs_eraseA {items : List (NormalizedCidr × StoredEntry)}
    {k : NormalizedCidr} {old : StoredEntry} (id : Nat)
    (hnd : keysNodup items) (h : lookupA items k = some old) :
    countRefs (eraseA items k) id + (if old.tag_id = id then 1 else 0) =
      countRefs items id := by
  induction items with
  | nil => cases h
  | cons q rest ih =>
    obtain ⟨a, b⟩ := q
    have hcons : (a :: keysOf rest).Nodup := hnd
    have hnd' : keysNodup rest := (List.nodup_cons.mp hcons).2
    rw [lookupA_cons] at h
    by_cases ha : a = k
    · subst ha
      rw [if_pos rfl] at h
      injection h with h
      subst h
      have hnotin : lookupA rest a = none := by
        apply (lookupA_eq_none_iff _ _).mpr
        exact (List.nodup_cons.mp hcons).1
      show countRefs (eraseA ((a, b) :: rest) a) id + (if b.tag_id = id then 1 else 0) =
        countRefs ((a, b) :: rest) id
      rw [show eraseA ((a, b) :: rest) a = eraseA rest a by simp [eraseA]]
      rw [eraseA_of_not_mem _ _ hnotin]
      unfold countRefs
      rw [List.filter_cons]
      by_cases hb : b.tag_id = id <;> simp [hb]
    · rw [if_neg ha] at h
      rw [show eraseA ((a, b) :: rest) k = (a, b) :: eraseA rest k by simp [eraseA, ha]]
      have step := ih hnd' h
      unfold countRefs at step ⊢
      rw [List.filter_cons, List.filter_cons]
      by_cases hb : b.tag_id = id <;> simp [hb] <;> omega

/-! ### Idempotence of reconciliation: invariant bundle and step lemmas -/

theorem lookupA_insertA {α β : Type} [DecidableEq α] (l : List (α × β)) (k k' : α) (v : β) :
    lookupA (insertA l k v) k' = if k = k' then some v else lookupA l k' := by
  by_cases hk : k = k'
  · subst hk
    rw [if_pos rfl]
    exact lookupA_insertA_self l k v
  · rw [if_neg hk]
    exact lookupA_insertA_ne l k k' v hk

theorem countRefs_insertA {items : List (NormalizedCidr × StoredEntry)}
    {k : NormalizedCidr} (ns : StoredEntry) (id : Nat) (hnd : keysNodup items) :
    countRefs (insertA items k ns) id +
      (match lookupA items k with
       | some old => if old.tag_id = id then 1 else 0
       | none => 0) =
    countRefs items id + (if ns.tag_id = id then 1 else 0) := by
  rcases hl : lookupA items k with _ | old
  · have hins : insertA items k ns = items ++ [(k, ns)] := by
      simp [insertA, hl]
    rw [hins, countRefs_append_single]
    rfl
  · have hins : insertA items k ns = updateA items k (fun _ => ns) := by
      simp [insertA, hl]
    rw [hins]
    exact countRefs_updateA ns id hnd hl

/-- `acquire` never changes the resolution of an already-allocated id: a fresh
acquisition binds the (new) id `next_id`, and a re-acquisition only bumps a
refcount, leaving every name in place. -/
theorem acquire_get_tag_old {t : String} {r : TagRegistryInner} {tid : Nat}
    {reg1 : TagRegistryInner} (hA : acquire t r = .ok (tid, reg1)) :
    ∀ i, i < r.next_id → get_tag reg1 i = get_tag r i := by
  intro i hi
  unfold acquire at hA
  rcases hn : lookupA r.by_name t with _ | id0
  · rw [hn] at hA
    simp only at hA
    by_cases hmax : r.next_id = UMAX
    · rw [if_pos hmax] at hA
      cases hA
    · rw [if_neg hmax] at hA
      injection hA with hA
      injection hA with hid hr
      subst hr
      have hne : r.next_id ≠ i := fun he => absurd (he ▸ hi) (lt_irrefl _)
      simp [get_tag, lookupA_insertA_ne _ _ _ _ hne]
  · rw [hn] at hA
    simp only at hA
    rcases hi0 : lookupA r.by_id id0 with _ | e
    · rw [hi0] at hA
      cases hA
    · rw [hi0] at hA
      injection hA with hA
      injection hA with hid hr
      subst hr
      by_cases hii : i = id0
      · subst hii
        simp [get_tag, lookupA_updateA, hi0]
      · simp [get_tag, lookupA_updateA, Ne.symm hii, hii]

/-- Releasing an id either keeps its name (refcount decrement) or unbinds it. -/
theorem get_tag_release_cases (i : Nat) (r : TagRegistryInner) :
    get_tag (release i r) i = get_tag r i ∨ get_tag (release i r) i = none := by
  unfold release
  rcases h : lookupA r.by_id i with _ | e
  · exact Or.inl rfl
  · by_cases hc : e.refcount - 1 = 0
    · refine Or.inr ?_
      simp [hc, get_tag, lookupA_eraseA]
    · refine Or.inl ?_
      simp [hc, get_tag, lookupA_updateA, h]

theorem entry_to_stored_ok_inv {reg : TagRegistryInner} {ent : Entry}
    {ns : StoredEntry} {reg1 : TagRegistryInner}
    (h : entry_to_stored reg ent = .ok (ns, reg1)) :
    acquire (tagOf ent) reg = .ok (ns.tag_id, reg1) ∧
    ns.creation = ent.creation ∧ ns.expiration = ent.expiration := by
  unfold entry_to_stored at h
  rcases hA : acquire (tagOf ent) reg with e | tr
  · rw [hA] at h
    cases h
  · obtain ⟨tid, reg'⟩ := tr
    rw [hA] at h
    injection h with h
    injection h with h1 h2
    subst h2
    subst h1
    exact ⟨rfl, rfl, rfl⟩

theorem update_stored_kOk_inv {s : LpmStoreState} {cidr : NormalizedCidr}
    {e old : StoredEntry} {s' : LpmStoreState}
    (h : update_stored kOk s cidr e = (.ok old, s')) :
    lookupA s.items cidr = some old ∧ s'.items = insertA s.items cidr e ∧
    s'.isV4 = s.isV4 := by
  unfold update_stored at h
  rcases hl : lookupA s.items cidr with _ | existing
  · rw [hl] at h
    injection h with h1 h2
    cases h1
  · rw [hl] at h
    simp only at h
    have hins : insertA s.items cidr e = updateA s.items cidr (fun _ => e) := by
      simp [insertA, hl]
    by_cases htag : existing.tag_id ≠ e.tag_id
    · rw [if_pos htag] at h
      rcases hk : insert_entry kOk s.isV4 s.kernel cidr e with e2 | k1
      · rw [hk] at h
        injection h with h1 h2
        cases h1
      · rw [hk] at h
        injection h with h1 h2
        injection h1 with h1
        subst h1
        subst h2
        exact ⟨rfl, hins.symm, rfl⟩
    · rw [if_neg htag] at h
      injection h with h1 h2
      injection h1 with h1
      subst h1
      subst h2
      exact ⟨rfl, hins.symm, rfl⟩

theorem add_or_update_stored_kOk_inv {s : LpmStoreState} {cidr : NormalizedCidr}
    {e : StoredEntry} {oldOpt : Option StoredEntry} {s' : LpmStoreState}
    (h : add_or_update_stored kOk s cidr e = (.ok oldOpt, s')) :
    oldOpt = lookupA s.items cidr ∧ s'.items = insertA s.items cidr e ∧
    s'.isV4 = s.isV4 := by
  unfold add_or_update_stored at h
  by_cases hcap : s.items.length ≥ s.maxEntries ∧ lookupA s.items cidr = none
  · rw [if_pos hcap] at h
    injection h with h1 h2
    cases h1
  · rw [if_neg hcap] at h
    rcases hl : lookupA s.items cidr with _ | old0
    · rw [hl] at h
      simp only at h
      rcases hk : insert_entry kOk s.isV4 s.kernel cidr e with e2 | k1
      · rw [hk] at h
        injection h with h1 h2
        cases h1
      · rw [hk] at h
        injection h with h1 h2
        injection h1 with h1
        subst h1
        subst h2
        exact ⟨rfl, rfl, rfl⟩
    · rw [hl] at h
      simp only at h
      have hins : insertA s.items cidr e = updateA s.items cidr (fun _ => e) := by
        simp [insertA, hl]
      by_cases htag : old0.tag_id ≠ e.tag_id
      · rw [if_pos htag] at h
        rcases hk : insert_entry kOk s.isV4 s.kernel cidr e with e2 | k1
        · rw [hk] at h
          injection h with h1 h2
          cases h1
        · rw [hk] at h
          injection h with h1 h2
          injection h1 with h1
          subst h1
          subst h2
          exact ⟨rfl, hins.symm, rfl⟩
      · rw [if_neg htag] at h
        injection h with h1 h2
        injection h1 with h1
        subst h1
        subst h2
        exact ⟨rfl, hins.symm, rfl⟩

theorem remove_stored_kOk_inv {s : LpmStoreState} {k0 : NormalizedCidr}
    {stored : StoredEntry}
    (hl : lookupA s.items k0 = some stored) (hkey : (lpmKeyOf s.isV4 k0).isSome) :
    ∃ store1, remove_stored kOk s k0 = (.ok stored, store1) ∧
      store1.items = eraseA s.items k0 ∧ store1.isV4 = s.isV4 := by
  rcases hkk : lpmKeyOf s.isV4 k0 with _ | key
  · rw [hkk] at hkey
    cases hkey
  · have hkres : remove_entry kOk s.isV4 s.kernel k0 = .ok (eraseA s.kernel key) := by
      unfold remove_entry
      rw [hkk]
      rfl
    refine ⟨{ s with kernel := eraseA s.kernel key, items := eraseA s.items k0 }, ?_, rfl, rfl⟩
    simp [remove_stored, hl, hkres]

/-- The invariant bundle threaded through the reconciliation loops: the
userspace map has no duplicate keys, the registry tables are well formed,
every stored tag id is below the allocation counter, and the registry
refcount of each id dominates the number of store entries referencing it. -/
def INVS (svc : SvcState) : Prop :=
  keysNodup svc.store.items ∧ RegWF svc.reg ∧
  (∀ k e, lookupA svc.store.items k = some e → e.tag_id < svc.reg.next_id) ∧
  (∀ id, countRefs svc.store.items id ≤ refcountOf svc.reg id)

/-- One upsert step of the reconciliation target loop (acquire the tag,
replace/insert the stored entry, release the replaced entry's tag if any)
preserves the invariant bundle and the resolution of every untouched entry's
tag, binds the processed key, and only decays names at old ids. -/
theorem step_invs_upsert (svc : SvcState) (tk : NormalizedCidr) (t : String) (ns : StoredEntry)
    (reg1 : TagRegistryInner) (store1 : LpmStoreState)
    (hI : INVS svc)
    (hA : acquire t svc.reg = .ok (ns.tag_id, reg1))
    (hitems : store1.items = insertA svc.store.items tk ns)
    (hv4 : store1.isV4 = svc.store.isV4) :
    INVS { store := store1, reg := releaseOpt (lookupA svc.store.items tk) reg1 } ∧
    svc.reg.next_id ≤ (releaseOpt (lookupA svc.store.items tk) reg1).next_id ∧
    lookupA store1.items tk = some ns ∧
    get_tag (releaseOpt (lookupA svc.store.items tk) reg1) ns.tag_id = some t ∧
    (∀ k e, lookupA svc.store.items k = some e → k ≠ tk →
      lookupA store1.items k = some e ∧
      get_tag (releaseOpt (lookupA svc.store.items tk) reg1) e.tag_id =
        get_tag svc.reg e.tag_id) ∧
    (∀ id, id < svc.reg.next_id →
      get_tag (releaseOpt (lookupA svc.store.items tk) reg1) id = get_tag svc.reg id ∨
      get_tag (releaseOpt (lookupA svc.store.items tk) reg1) id = none) := by
  obtain ⟨hnd, hwf, hidb, href⟩ := hI
  obtain ⟨hg1, hrc1, hmon1, hlt1, -, -⟩ := acquire_ok_facts t svc.reg ns.tag_id reg1 hwf hA
  have hthe := acquire_get_tag_old hA
  have hwf1 := regWF_acquire t svc.reg ns.tag_id reg1 hwf hA
  rcases hl : lookupA svc.store.items tk with _ | old
  · simp only [releaseOpt]
    refine ⟨⟨?_, hwf1, ?_, ?_⟩, hmon1, ?_, ?_, ?_, ?_⟩
    · rw [hitems]
      exact keysNodup_insertA _ _ _ hnd
    · intro k e hke
      rw [hitems, lookupA_insertA] at hke
      by_cases hk : tk = k
      · rw [if_pos hk] at hke
        injection hke with hke
        subst hke
        exact hlt1
      · rw [if_neg hk] at hke
        exact lt_of_lt_of_le (hidb k e hke) hmon1
    · intro id
      have hc := countRefs_insertA (k := tk) ns id hnd
      rw [hl] at hc
      simp only at hc
      have h0 := href id
      show countRefs store1.items id ≤ refcountOf reg1 id
      rw [hitems]
      by_cases h2 : ns.tag_id = id
      · subst h2
        have hr := hrc1 ns.tag_id
        rw [if_pos rfl] at hr
        rw [if_pos rfl] at hc
        omega
      · have hr := hrc1 id
        rw [if_neg (fun h => h2 h.symm)] at hr
        rw [if_neg h2] at hc
        omega
    · rw [hitems]
      exact lookupA_insertA_self _ _ _
    · have := hg1 ns.tag_id
      rwa [if_pos rfl] at this
    · intro k e hke hkne
      refine ⟨?_, ?_⟩
      · rw [hitems, lookupA_insertA, if_neg (fun h => hkne h.symm)]
        exact hke
      · exact hthe e.tag_id (hidb k e hke)
    · intro id hid
      exact Or.inl (hthe id hid)
  · simp only [releaseOpt]
    have hmem_old : (tk, old) ∈ svc.store.items := lookupA_mem hl
    have hrc_old_ge1 : 1 ≤ refcountOf svc.reg old.tag_id :=
      le_trans (one_le_countRefs hmem_old) (href old.tag_id)
    refine ⟨⟨?_, regWF_release _ _ hwf1, ?_, ?_⟩, ?_, ?_, ?_, ?_, ?_⟩
    · rw [hitems]
      exact keysNodup_insertA _ _ _ hnd
    · intro k e hke
      rw [hitems, lookupA_insertA] at hke
      show e.tag_id < (release old.tag_id reg1).next_id
      rw [release_next_id]
      by_cases hk : tk = k
      · rw [if_pos hk] at hke
        injection hke with hke
        subst hke
        exact hlt1
      · rw [if_neg hk] at hke
        exact lt_of_lt_of_le (hidb k e hke) hmon1
    · intro id
      have hc := countRefs_insertA (k := tk) ns id hnd
      rw [hl] at hc
      simp only at hc
      have hrel := refcountOf_release old.tag_id id reg1
      have h0 := href id
      show countRefs store1.items id ≤ refcountOf (release old.tag_id reg1) id
      rw [hitems]
      by_cases h2 : ns.tag_id = id
      · subst h2
        rw [if_pos rfl] at hc
        have hr := hrc1 ns.tag_id
        rw [if_pos rfl] at hr
        by_cases h1 : old.tag_id = ns.tag_id
        · rw [h1] at hc hrel ⊢
          rw [if_pos rfl] at hc
          rw [if_pos rfl] at hrel
          omega
        · rw [if_neg h1] at hc
          rw [if_neg (fun h => h1 h.symm)] at hrel
          omega
      · rw [if_neg h2] at hc
        have hr := hrc1 id
        rw [if_neg (fun h => h2 h.symm)] at hr
        by_cases h1 : old.tag_id = id
        · rw [h1] at hc hrel ⊢
          rw [if_pos rfl] at hc
          rw [if_pos rfl] at hrel
          have hr2 := hrc1 id
          rw [if_neg (fun h => h2 h.symm)] at hr2
          omega
        · rw [if_neg h1] at hc
          rw [if_neg (fun h => h1 h.symm)] at hrel
          omega
    · show svc.reg.next_id ≤ (release old.tag_id reg1).next_id
      rw [release_next_id]
      exact hmon1
    · rw [hitems]
      exact lookupA_insertA_self _ _ _
    · have hgt : get_tag reg1 ns.tag_id = some t := by
        have := hg1 ns.tag_id
        rwa [if_pos rfl] at this
      by_cases hj : old.tag_id = ns.tag_id
      · have h2 : 2 ≤ refcountOf reg1 ns.tag_id := by
          have hx := hrc1 ns.tag_id
          rw [if_pos rfl] at hx
          rw [hj] at hrc_old_ge1
          omega
        rw [hj, get_tag_release_self _ _ h2]
        exact hgt
      · rw [get_tag_release_ne _ _ _ (fun h => hj h.symm)]
        exact hgt
    · intro k e hke hkne
      have hstep1 : get_tag reg1 e.tag_id = get_tag svc.reg e.tag_id :=
        hthe _ (hidb k e hke)
      refine ⟨?_, ?_⟩
      · rw [hitems, lookupA_insertA, if_neg (fun h => hkne h.symm)]
        exact hke
      · by_cases hj : old.tag_id = e.tag_id
        · have hmem_e : (k, e) ∈ svc.store.items := lookupA_mem hke
          have h2c : 2 ≤ countRefs svc.store.items e.tag_id :=
            two_le_countRefs hmem_e hmem_old hkne hj.symm
          have h2 : 2 ≤ refcountOf reg1 e.tag_id := by
            have h0 := href e.tag_id
            by_cases he : e.tag_id = ns.tag_id
            · rw [he] at h2c h0 ⊢
              have hx := hrc1 ns.tag_id
              rw [if_pos rfl] at hx
              omega
            · have hx := hrc1 e.tag_id
              rw [if_neg he] at hx
              omega
          rw [hj, get_tag_release_self _ _ h2]
          exact hstep1
        · rw [get_tag_release_ne _ _ _ (fun h => hj h.symm)]
          exact hstep1
    · intro id hid
      have hstep1 : get_tag reg1 id = get_tag svc.reg id := hthe id hid
      by_cases hj : id = old.tag_id
      · subst hj
        rcases get_tag_release_cases old.tag_id reg1 with hcase | hcase
        · exact Or.inl (hcase.trans hstep1)
        · exact Or.inr hcase
      · rw [get_tag_release_ne _ _ _ hj]
        exact Or.inl hstep1

/-- The reconciliation target loop, run to successful completion, preserves
the invariant bundle; binds every target key to a stored entry whose tag
resolves to the target tag and whose expiration matches; leaves non-target
keys untouched; erases exactly the target keys from the diff map; keeps the
tag resolution of every untouched entry; and only decays names at old ids. -/
theorem phase1_main :
    ∀ (tgt : List (NormalizedCidr × Entry)) (svc : SvcState)
      (sm : List (NormalizedCidr × StoredEntry)) (c : SetCounter)
      (svc' : SvcState) (sm' : List (NormalizedCidr × StoredEntry)) (c' : SetCounter),
    ulsPhase1 tgt svc sm c = (.ok (), svc', sm', c') →
    (keysOf tgt).Nodup →
    (∀ tk ent, (tk, ent) ∈ tgt → strEndsA (tagOf ent) SET_EXTENSION = true) →
    (∀ p ∈ sm, lookupA svc.store.items p.1 = some p.2) →
    keysNodup sm →
    INVS svc →
    INVS svc' ∧ svc.reg.next_id ≤ svc'.reg.next_id ∧
    svc'.store.isV4 = svc.store.isV4 ∧
    (∀ k, k ∉ keysOf tgt → lookupA svc'.store.items k = lookupA svc.store.items k) ∧
    (∀ tk ent, (tk, ent) ∈ tgt → ∃ p, lookupA svc'.store.items tk = some p ∧
      get_tag svc'.reg p.tag_id = some (tagOf ent) ∧ p.expiration = ent.expiration) ∧
    (∀ p ∈ sm', p ∈ sm ∧ p.1 ∉ keysOf tgt) ∧
    keysNodup sm' ∧
    (∀ k e, lookupA svc.store.items k = some e → k ∉ keysOf tgt →
      get_tag svc'.reg e.tag_id = get_tag svc.reg e.tag_id) ∧
    (∀ id, id < svc.reg.next_id →
      get_tag svc'.reg id = get_tag svc.reg id ∨ get_tag svc'.reg id = none) := by
  intro tgt
  induction tgt with
  | nil =>
    intro svc sm c svc' sm' c' h _ _ hsm hsmnd hI
    simp only [ulsPhase1] at h
    injection h with h1 h2
    injection h2 with h2 h3
    injection h3 with h3 h4
    subst h2
    subst h3
    refine ⟨hI, le_refl _, rfl, fun k _ => rfl, ?_, ?_, hsmnd, ?_, ?_⟩
    · intro tk ent hmem
      cases hmem
    · intro p hp
      exact ⟨hp, fun hc => by cases hc⟩
    · intro k e _ _
      rfl
    · intro id _
      exact Or.inl rfl
  | cons q rest ih =>
    intro svc sm c svc' sm' c' h hndt htags hsm hsmnd hI
    obtain ⟨tk, ent⟩ := q
    have hndr : (keysOf rest).Nodup := (List.nodup_cons.mp hndt).2
    have htk_nr : tk ∉ keysOf rest := (List.nodup_cons.mp hndt).1
    have htags_r : ∀ tk' ent', (tk', ent') ∈ rest →
        strEndsA (tagOf ent') SET_EXTENSION = true :=
      fun tk' ent' hm => htags tk' ent' (List.mem_cons_of_mem _ hm)
    simp only [ulsPhase1] at h
    rcases hl : lookupA sm tk with _ | ex
    · rw [hl] at h
      simp only at h
      rcases hE : entry_to_stored svc.reg ent with e | nsr
      · rw [hE] at h
        injection h with h1 h2
        cases h1
      · obtain ⟨ns, reg1⟩ := nsr
        rw [hE] at h
        simp only at h
        rcases hU : add_or_update_stored kOk svc.store tk ns with ⟨res, store1⟩
        rw [hU] at h
        rcases res with e | oldOpt
        · simp only at h
          injection h with h1 h2
          cases h1
        · simp only at h
          obtain ⟨hAq, hcre, hexp⟩ := entry_to_stored_ok_inv hE
          obtain ⟨hoe, hitems, hv4⟩ := add_or_update_stored_kOk_inv hU
          subst hoe
          obtain ⟨hI2, hmon2, hlook2, hget2, hfr2, hnd2⟩ :=
            step_invs_upsert svc tk (tagOf ent) ns reg1 store1 hI hAq hitems hv4
          have hsm2 : ∀ p ∈ sm, lookupA store1.items p.1 = some p.2 := by
            intro p hp
            have hne : p.1 ≠ tk := by
              intro hq
              have hx : (lookupA sm p.1).isSome :=
                (lookupA_isSome_iff _ _).mpr (List.mem_map.mpr ⟨p, hp, rfl⟩)
              rw [hq, hl] at hx
              cases hx
            exact (hfr2 p.1 p.2 (hsm p hp) hne).1
          obtain ⟨iI, imon, iv4, ifr, iproc, ismres, ismnd, istab, indec⟩ :=
            ih _ sm _ svc' sm' c' h hndr htags_r hsm2 hsmnd hI2
          refine ⟨iI, le_trans hmon2 imon, iv4.trans hv4, ?_, ?_, ?_, ismnd, ?_, ?_⟩
          · intro k hknt
            have hkne : k ≠ tk := fun hq => hknt (hq ▸ List.mem_cons_self _ _)
            have hknt' : k ∉ keysOf rest := fun hm => hknt (List.mem_cons_of_mem _ hm)
            rw [ifr k hknt']
            show lookupA store1.items k = lookupA svc.store.items k
            rw [hitems, lookupA_insertA, if_neg (fun hq => hkne hq.symm)]
          · intro tk' ent' hmem
            rcases List.mem_cons.mp hmem with hhead | htail
            · injection hhead with hh1 hh2
              subst hh1
              subst hh2
              refine ⟨ns, ?_, ?_, hexp⟩
              · rw [ifr tk' htk_nr]
                exact hlook2
              · rw [istab tk' ns hlook2 htk_nr]
                exact hget2
            · exact iproc tk' ent' htail
          · intro p hp
            obtain ⟨hp1, hp2⟩ := ismres p hp
            refine ⟨hp1, ?_⟩
            intro hmem
            rcases List.mem_cons.mp hmem with hh | hh
            · have hx : (lookupA sm p.1).isSome :=
                (lookupA_isSome_iff _ _).mpr (List.mem_map.mpr ⟨p, hp1, rfl⟩)
              rw [hh, hl] at hx
              cases hx
            · exact hp2 hh
          · intro k e hke hknt
            have hkne : k ≠ tk := fun hq => hknt (hq ▸ List.mem_cons_self _ _)
            have hknt' : k ∉ keysOf rest := fun hm => hknt (List.mem_cons_of_mem _ hm)
            obtain ⟨hk1, hk2⟩ := hfr2 k e hke hkne
            rw [istab k e hk1 hknt', hk2]
          · intro id hid
            rcases hnd2 id hid with hcase | hcase
            · rcases indec id (lt_of_lt_of_le hid hmon2) with hc2 | hc2
              · exact Or.inl (hc2.trans hcase)
              · exact Or.inr hc2
            · rcases indec id (lt_of_lt_of_le hid hmon2) with hc2 | hc2
              · exact Or.inr (hc2.trans hcase)
              · exact Or.inr hc2
    · rw [hl] at h
      simp only at h
      by_cases hdiff : tagOf ent ≠ (get_tag svc.reg ex.tag_id).getD "" ∨
          ent.expiration ≠ ex.expiration
      · rw [if_pos hdiff] at h
        rcases hE : entry_to_stored svc.reg ent with e | nsr
        · rw [hE] at h
          injection h with h1 h2
          cases h1
        · obtain ⟨ns, reg1⟩ := nsr
          rw [hE] at h
          simp only at h
          rcases hU : update_stored kOk svc.store tk ns with ⟨res, store1⟩
          rw [hU] at h
          rcases res with e | old
          · simp only at h
            injection h with h1 h2
            cases h1
          · simp only at h
            obtain ⟨hAq, hcre, hexp⟩ := entry_to_stored_ok_inv hE
            obtain ⟨hlo, hitems, hv4⟩ := update_stored_kOk_inv hU
            have hrel : release old.tag_id reg1 =
                releaseOpt (lookupA svc.store.items tk) reg1 := by
              rw [hlo]
              rfl
            rw [hrel] at h
            obtain ⟨hI2, hmon2, hlook2, hget2, hfr2, hnd2⟩ :=
              step_invs_upsert svc tk (tagOf ent) ns reg1 store1 hI hAq hitems hv4
            have hsmnd2 : keysNodup (eraseA sm tk) := keysNodup_eraseA _ _ hsmnd
            have hsm2 : ∀ p ∈ eraseA sm tk, lookupA store1.items p.1 = some p.2 := by
              intro p hp
              obtain ⟨hpm, hpne⟩ := mem_eraseA hp
              exact (hfr2 p.1 p.2 (hsm p hpm) hpne).1
            obtain ⟨iI, imon, iv4, ifr, iproc, ismres, ismnd, istab, indec⟩ :=
              ih _ _ _ svc' sm' c' h hndr htags_r hsm2 hsmnd2 hI2
            refine ⟨iI, le_trans hmon2 imon, iv4.trans hv4, ?_, ?_, ?_, ismnd, ?_, ?_⟩
            · intro k hknt
              have hkne : k ≠ tk := fun hq => hknt (hq ▸ List.mem_cons_self _ _)
              have hknt' : k ∉ keysOf rest := fun hm => hknt (List.mem_cons_of_mem _ hm)
              rw [ifr k hknt']
              show lookupA store1.items k = lookupA svc.store.items k
              rw [hitems, lookupA_insertA, if_neg (fun hq => hkne hq.symm)]
            · intro tk' ent' hmem
              rcases List.mem_cons.mp hmem with hhead | htail
              · injection hhead with hh1 hh2
                subst hh1
                subst hh2
                refine ⟨ns, ?_, ?_, hexp⟩
                · rw [ifr tk' htk_nr]
                  exact hlook2
                · rw [istab tk' ns hlook2 htk_nr]
                  exact hget2
              · exact iproc tk' ent' htail
            · intro p hp
              obtain ⟨hp1, hp2⟩ := ismres p hp
              obtain ⟨hpm, hpne⟩ := mem_eraseA hp1
              refine ⟨hpm, ?_⟩
              intro hmem
              rcases List.mem_cons.mp hmem with hh | hh
              · exact hpne hh
              · exact hp2 hh
            · intro k e hke hknt
              have hkne : k ≠ tk := fun hq => hknt (hq ▸ List.mem_cons_self _ _)
              have hknt' : k ∉ keysOf rest := fun hm => hknt (List.mem_cons_of_mem _ hm)
              obtain ⟨hk1, hk2⟩ := hfr2 k e hke hkne
              rw [istab k e hk1 hknt', hk2]
            · intro id hid
              rcases hnd2 id hid with hcase | hcase
              · rcases indec id (lt_of_lt_of_le hid hmon2) with hc2 | hc2
                · exact Or.inl (hc2.trans hcase)
                · exact Or.inr hc2
              · rcases indec id (lt_of_lt_of_le hid hmon2) with hc2 | hc2
                · exact Or.inr (hc2.trans hcase)
                · exact Or.inr hc2
      · rw [if_neg hdiff] at h
        push_neg at hdiff
        obtain ⟨hteq, heeq⟩ := hdiff
        have hmem_ex : (tk, ex) ∈ sm := lookupA_mem hl
        have hex_items : lookupA svc.store.items tk = some ex := hsm _ hmem_ex
        have hget_ex : get_tag svc.reg ex.tag_id = some (tagOf ent) := by
          rcases hg : get_tag svc.reg ex.tag_id with _ | nm
          · rw [hg] at hteq
            simp only [Option.getD_none] at hteq
            have hT := htags tk ent (List.mem_cons_self _ _)
            rw [hteq] at hT
            exact absurd hT (by decide)
          · rw [hg] at hteq
            simp only [Option.getD_some] at hteq
            rw [hteq]
        have hsmnd2 : keysNodup (eraseA sm tk) := keysNodup_eraseA sm tk hsmnd
        have hsm2 : ∀ p ∈ eraseA sm tk, lookupA svc.store.items p.1 = some p.2 :=
          fun p hp => hsm p (mem_eraseA hp).1
        obtain ⟨iI, imon, iv4, ifr, iproc, ismres, ismnd, istab, indec⟩ :=
          ih _ _ _ svc' sm' c' h hndr htags_r hsm2 hsmnd2 hI
        refine ⟨iI, imon, iv4, ?_, ?_, ?_, ismnd, ?_, indec⟩
        · intro k hknt
          exact ifr k (fun hm => hknt (List.mem_cons_of_mem _ hm))
        · intro tk' ent' hmem
          rcases List.mem_cons.mp hmem with hhead | htail
          · injection hhead with hh1 hh2
            subst hh1
            subst hh2
            refine ⟨ex, ?_, ?_, heeq.symm⟩
            · rw [ifr tk' htk_nr]
              exact hex_items
            · rw [istab tk' ex hex_items htk_nr]
              exact hget_ex
          · exact iproc tk' ent' htail
        · intro p hp
          obtain ⟨hp1, hp2⟩ := ismres p hp
          obtain ⟨hpm, hpne⟩ := mem_eraseA hp1
          refine ⟨hpm, ?_⟩
          intro hmem
          rcases List.mem_cons.mp hmem with hh | hh
          · exact hpne hh
          · exact hp2 hh
        · intro k e hke hknt
          exact istab k e hke (fun hm => hknt (List.mem_cons_of_mem _ hm))

/-- The reconciliation removal loop, with every diff entry present in the
userspace map and of the store's address family, removes exactly the diff
keys, preserves the invariant bundle, keeps the tag resolution of every
untouched entry, and only decays names at old ids. -/
theorem phase2_main :
    ∀ (sm : List (NormalizedCidr × StoredEntry)) (svc : SvcState) (c : SetCounter),
    (∀ p ∈ sm, lookupA svc.store.items p.1 = some p.2) →
    (∀ p ∈ sm, (lpmKeyOf svc.store.isV4 p.1).isSome) →
    keysNodup sm →
    INVS svc →
    INVS (ulsPhase2 sm svc c).1 ∧
    svc.reg.next_id ≤ (ulsPhase2 sm svc c).1.reg.next_id ∧
    (ulsPhase2 sm svc c).1.store.isV4 = svc.store.isV4 ∧
    (∀ k, k ∉ keysOf sm →
      lookupA (ulsPhase2 sm svc c).1.store.items k = lookupA svc.store.items k) ∧
    (∀ p ∈ sm, lookupA (ulsPhase2 sm svc c).1.store.items p.1 = none) ∧
    (∀ k e, lookupA svc.store.items k = some e → k ∉ keysOf sm →
      get_tag (ulsPhase2 sm svc c).1.reg e.tag_id = get_tag svc.reg e.tag_id) ∧
    (∀ id, id < svc.reg.next_id →
      get_tag (ulsPhase2 sm svc c).1.reg id = get_tag svc.reg id ∨
      get_tag (ulsPhase2 sm svc c).1.reg id = none) := by
  intro sm
  induction sm with
  | nil =>
    intro svc c _ _ _ hI
    refine ⟨hI, le_refl _, rfl, fun k _ => rfl, ?_, ?_, ?_⟩
    · intro p hp
      cases hp
    · intro k e _ _
      rfl
    · intro id _
      exact Or.inl rfl
  | cons q rest ih =>
    intro svc c hpres hfam hsmnd hI
    obtain ⟨k0, stored⟩ := q
    obtain ⟨hnd, hwf, hidb, href⟩ := hI
    have hk0_nr : k0 ∉ keysOf rest := (List.nodup_cons.mp hsmnd).1
    have hsmnd' : keysNodup rest := (List.nodup_cons.mp hsmnd).2
    have hl0 : lookupA svc.store.items k0 = some stored :=
      hpres _ (List.mem_cons_self _ _)
    have hkey0 : (lpmKeyOf svc.store.isV4 k0).isSome :=
      hfam _ (List.mem_cons_self _ _)
    obtain ⟨store1, hR, hitems, hv4⟩ := remove_stored_kOk_inv hl0 hkey0
    have hmem_0 : (k0, stored) ∈ svc.store.items := lookupA_mem hl0
    have hstep : ulsPhase2 ((k0, stored) :: rest) svc c =
        ulsPhase2 rest { store := store1, reg := release stored.tag_id svc.reg }
          { c with removed := c.removed + 1 } := by
      simp only [ulsPhase2]
      rw [hR]
    rw [hstep]
    have hIs : INVS { store := store1, reg := release stored.tag_id svc.reg } := by
      refine ⟨?_, regWF_release _ _ hwf, ?_, ?_⟩
      · show keysNodup store1.items
        rw [hitems]
        exact keysNodup_eraseA _ _ hnd
      · intro k e hke
        show e.tag_id < (release stored.tag_id svc.reg).next_id
        rw [release_next_id]
        rw [hitems, lookupA_eraseA] at hke
        by_cases hk : k0 = k
        · rw [if_pos hk] at hke
          cases hke
        · rw [if_neg hk] at hke
          exact hidb k e hke
      · intro id
        show countRefs store1.items id ≤ refcountOf (release stored.tag_id svc.reg) id
        rw [hitems]
        have hrel := refcountOf_release stored.tag_id id svc.reg
        have hc := countRefs_eraseA (k := k0) id hnd hl0
        by_cases hj : stored.tag_id = id
        · subst hj
          rw [if_pos rfl] at hc hrel
          have h0 := href stored.tag_id
          omega
        · rw [if_neg hj] at hc
          rw [if_neg (fun hq => hj hq.symm)] at hrel
          have h0 := href id
          omega
    have hpres' : ∀ p ∈ rest,
        lookupA store1.items p.1 = some p.2 := by
      intro p hp
      have hpne : k0 ≠ p.1 := by
        intro hq
        exact hk0_nr (hq ▸ List.mem_map.mpr ⟨p, hp, rfl⟩)
      rw [hitems, lookupA_eraseA, if_neg hpne]
      exact hpres p (List.mem_cons_of_mem _ hp)
    have hfam' : ∀ p ∈ rest, (lpmKeyOf store1.isV4 p.1).isSome := by
      intro p hp
      rw [hv4]
      exact hfam p (List.mem_cons_of_mem _ hp)
    obtain ⟨iI, imon, iv4, ifr, irem, istab, indec⟩ :=
      ih { store := store1, reg := release stored.tag_id svc.reg }
        { c with removed := c.removed + 1 } hpres' hfam' hsmnd' hIs
    have hstep_tag : ∀ k e, lookupA svc.store.items k = some e → k ≠ k0 →
        get_tag (release stored.tag_id svc.reg) e.tag_id = get_tag svc.reg e.tag_id := by
      intro k e hke hkne
      by_cases hj : stored.tag_id = e.tag_id
      · have hmem_e : (k, e) ∈ svc.store.items := lookupA_mem hke
        have h2c : 2 ≤ countRefs svc.store.items e.tag_id :=
          two_le_countRefs hmem_e hmem_0 hkne hj.symm
        have h2 : 2 ≤ refcountOf svc.reg e.tag_id := le_trans h2c (href e.tag_id)
        rw [hj]
        exact get_tag_release_self _ _ h2
      · exact get_tag_release_ne _ _ _ (fun hq => hj hq.symm)
    refine ⟨iI, ?_, iv4.trans hv4, ?_, ?_, ?_, ?_⟩
    · rw [← release_next_id stored.tag_id svc.reg]
      exact imon
    · intro k hknt
      have hkne : k ≠ k0 := fun hq => hknt (hq ▸ List.mem_cons_self _ _)
      have hknt' : k ∉ keysOf rest := fun hm => hknt (List.mem_cons_of_mem _ hm)
      rw [ifr k hknt']
      show lookupA store1.items k = lookupA svc.store.items k
      rw [hitems, lookupA_eraseA, if_neg (fun hq => hkne hq.symm)]
    · intro p hp
      rcases List.mem_cons.mp hp with hh | hh
      · subst hh
        rw [ifr k0 hk0_nr]
        show lookupA store1.items k0 = none
        rw [hitems, lookupA_eraseA, if_pos rfl]
      · exact irem p hh
    · intro k e hke hknt
      have hkne : k ≠ k0 := fun hq => hknt (hq ▸ List.mem_cons_self _ _)
      have hknt' : k ∉ keysOf rest := fun hm => hknt (List.mem_cons_of_mem _ hm)
      have hk1 : lookupA store1.items k = some e := by
        rw [hitems, lookupA_eraseA, if_neg (fun hq => hkne hq.symm)]
        exact hke
      rw [istab k e hk1 hknt']
      exact hstep_tag k e hke hkne
    · intro id hid
      have hid' : id < (release stored.tag_id svc.reg).next_id := by
        rw [release_next_id]
        exact hid
      have hone : get_tag (release stored.tag_id svc.reg) id = get_tag svc.reg id ∨
          get_tag (release stored.tag_id svc.reg) id = none := by
        by_cases hj : id = stored.tag_id
        · subst hj
          exact get_tag_release_cases stored.tag_id svc.reg
        · exact Or.inl (get_tag_release_ne _ _ _ hj)
      rcases hone with hcase | hcase
      · rcases indec id hid' with hc2 | hc2
        · exact Or.inl (hc2.trans hcase)
        · exact Or.inr hc2
      · rcases indec id hid' with hc2 | hc2
        · exact Or.inr (hc2.trans hcase)
        · exact Or.inr hc2

/-- When every target entry already matches its stored counterpart, the
target loop takes only no-difference paths: it changes nothing and only
erases the target keys from the diff map. -/
theorem run2_phase1 :
    ∀ (tgt : List (NormalizedCidr × Entry)) (svc : SvcState)
      (sm : List (NormalizedCidr × StoredEntry)) (c : SetCounter),
    (keysOf tgt).Nodup →
    (∀ tk ent, (tk, ent) ∈ tgt → ∃ ex, lookupA sm tk = some ex ∧
      (get_tag svc.reg ex.tag_id).getD "" = tagOf ent ∧
      ex.expiration = ent.expiration) →
    ulsPhase1 tgt svc sm c =
      (.ok (), svc, List.foldl (fun s p => eraseA s p.1) sm tgt, c) := by
  intro tgt
  induction tgt with
  | nil =>
    intro svc sm c _ _
    rfl
  | cons q rest ih =>
    intro svc sm c hndt hstep
    obtain ⟨tk, ent⟩ := q
    obtain ⟨ex, hl, hg, he⟩ := hstep tk ent (List.mem_cons_self _ _)
    have hndr : (keysOf rest).Nodup := (List.nodup_cons.mp hndt).2
    have htk_nr : tk ∉ keysOf rest := (List.nodup_cons.mp hndt).1
    simp only [ulsPhase1]
    rw [hl]
    simp only
    rw [if_neg (by push_neg; exact ⟨hg.symm, he.symm⟩)]
    have hstep' : ∀ tk' ent', (tk', ent') ∈ rest → ∃ ex',
        lookupA (eraseA sm tk) tk' = some ex' ∧
        (get_tag svc.reg ex'.tag_id).getD "" = tagOf ent' ∧
        ex'.expiration = ent'.expiration := by
      intro tk' ent' hm
      obtain ⟨ex', hl', hg', he'⟩ := hstep tk' ent' (List.mem_cons_of_mem _ hm)
      refine ⟨ex', ?_, hg', he'⟩
      rw [lookupA_eraseA, if_neg]
      · exact hl'
      · intro hq
        exact htk_nr (hq ▸ List.mem_map.mpr ⟨(tk', ent'), hm, rfl⟩)
    rw [ih svc (eraseA sm tk) c hndr hstep']
    rfl

/-- Erasing, in turn, every key of `tgt` from a duplicate-free map whose keys
all occur in `tgt` empties the map. -/
theorem foldl_eraseA_nil :
    ∀ (tgt : List (NormalizedCidr × Entry)) (sm : List (NormalizedCidr × StoredEntry)),
    keysNodup sm →
    (∀ p ∈ sm, p.1 ∈ keysOf tgt) →
    List.foldl (fun s p => eraseA s p.1) sm tgt = [] := by
  intro tgt
  induction tgt with
  | nil =>
    intro sm _ hsub
    rcases sm with _ | ⟨p, rest⟩
    · rfl
    · exact absurd (hsub p (List.mem_cons_self _ _)) (by intro hc; cases hc)
  | cons q rest ih =>
    intro sm hsmnd hsub
    obtain ⟨tk, ent⟩ := q
    show List.foldl (fun s p => eraseA s p.1) (eraseA sm tk) rest = []
    apply ih (eraseA sm tk) (keysNodup_eraseA _ _ hsmnd)
    intro p hp
    obtain ⟨hpm, hpne⟩ := mem_eraseA hp
    rcases List.mem_cons.mp (hsub p hpm) with hh | hh
    · exact absurd hh hpne
    · exact hh

/-- C6: set reconciliation is idempotent — after a successful
`update_lpm_store` run against a target set (whose tags carry the
`.couic` set extension and whose keys are distinct, as `reload_sets`
produces them) from a well-formed service state, running
`update_lpm_store` again with the same target returns all counters
(created, updated, removed) at zero and leaves the service state exactly
as the first run left it. -/
theorem reconcile_idempotent (svc : SvcState) (target : List (NormalizedCidr × Entry))
    (c : SetCounter) (svc1 : SvcState)
    (hrun1 : update_lpm_store svc target = (.ok c, svc1))
    (htags : ∀ tk ent, (tk, ent) ∈ target → strEndsA (tagOf ent) SET_EXTENSION = true)
    (htknd : (keysOf target).Nodup)
    (hnd : keysNodup svc.store.items)
    (hwf : RegWF svc.reg)
    (hidb : ∀ k e, lookupA svc.store.items k = some e → e.tag_id < svc.reg.next_id)
    (href : ∀ id, countRefs svc.store.items id ≤ refcountOf svc.reg id)
    (hfam : ∀ p ∈ svc.store.items, (lpmKeyOf svc.store.isV4 p.1).isSome) :
    update_lpm_store svc1 target =
      (.ok { updated := 0, removed := 0, created := 0 }, svc1) := by
  have hI : INVS svc := ⟨hnd, hwf, hidb, href⟩
  unfold update_lpm_store at hrun1
  rcases h1 : ulsPhase1 target svc
      (svc.store.items.filter (fun p => setOriginB svc.reg p.2.tag_id))
      { updated := 0, removed := 0, created := 0 } with ⟨res1, svcA, sm1, c1⟩
  rw [h1] at hrun1
  rcases res1 with e | u
  · simp only at hrun1
    injection hrun1 with hh1 hh2
    cases hh1
  · cases u
    simp only at hrun1
    injection hrun1 with hc hsvc1
    have hsm0pres : ∀ p ∈ svc.store.items.filter (fun p => setOriginB svc.reg p.2.tag_id),
        lookupA svc.store.items p.1 = some p.2 := by
      intro p hp
      exact lookupA_of_mem_nodup hnd (List.mem_filter.mp hp).1
    have hsm0nd : keysNodup
        (svc.store.items.filter (fun p => setOriginB svc.reg p.2.tag_id)) :=
      hnd.sublist ((List.filter_sublist _).map Prod.fst)
    obtain ⟨AI, Amon, Av4, Afr, Aproc, Asmres, Asmnd, Astab, Andec⟩ :=
      phase1_main target svc _ _ svcA sm1 c1 h1 htknd htags hsm0pres hsm0nd hI
    have hpres1 : ∀ p ∈ sm1, lookupA svcA.store.items p.1 = some p.2 := by
      intro p hp
      obtain ⟨hp0, hpnt⟩ := Asmres p hp
      rw [Afr p.1 hpnt]
      exact hsm0pres p hp0
    have hfam1 : ∀ p ∈ sm1, (lpmKeyOf svcA.store.isV4 p.1).isSome := by
      intro p hp
      rw [Av4]
      exact hfam p (List.mem_filter.mp (Asmres p hp).1).1
    obtain ⟨BI, Bmon, Bv4, Bfr, Brem, Bstab, Bndec⟩ :=
      phase2_main sm1 svcA c1 hpres1 hfam1 Asmnd AI
    rw [hsvc1] at BI Bmon Bv4 Bfr Brem Bstab Bndec
    have hstep2 : ∀ tk ent, (tk, ent) ∈ target → ∃ ex,
        lookupA (svc1.store.items.filter (fun p => setOriginB svc1.reg p.2.tag_id)) tk =
          some ex ∧
        (get_tag svc1.reg ex.tag_id).getD "" = tagOf ent ∧
        ex.expiration = ent.expiration := by
      intro tk ent hm
      obtain ⟨p, hpl, hpg, hpe⟩ := Aproc tk ent hm
      have htk_nsm1 : tk ∉ keysOf sm1 := by
        intro hmem
        obtain ⟨q, hq, hq1⟩ := List.mem_map.mp hmem
        exact (Asmres q hq).2 (hq1 ▸ List.mem_map.mpr ⟨(tk, ent), hm, rfl⟩)
      have hl1 : lookupA svc1.store.items tk = some p := by
        rw [Bfr tk htk_nsm1]
        exact hpl
      have hg1 : get_tag svc1.reg p.tag_id = some (tagOf ent) := by
        rw [Bstab tk p hpl htk_nsm1]
        exact hpg
      have hptrue : setOriginB svc1.reg p.tag_id = true := by
        unfold setOriginB
        rw [hg1]
        exact htags tk ent hm
      refine ⟨p, ?_, ?_, hpe⟩
      · exact lookupA_filter_of_true _ hl1 hptrue
      · rw [hg1]
        rfl
    have hnd1 : keysNodup svc1.store.items := BI.1
    have hsub2 : ∀ p ∈ svc1.store.items.filter (fun p => setOriginB svc1.reg p.2.tag_id),
        p.1 ∈ keysOf target := by
      intro p hp
      obtain ⟨hpm, hpqraw⟩ := List.mem_filter.mp hp
      have hpq : setOriginB svc1.reg p.2.tag_id = true := hpqraw
      by_contra hnt
      have hl1 : lookupA svc1.store.items p.1 = some p.2 := lookupA_of_mem_nodup hnd1 hpm
      by_cases hin : p.1 ∈ keysOf sm1
      · obtain ⟨q, hq, hq1⟩ := List.mem_map.mp hin
        have hrem := Brem q hq
        rw [hq1] at hrem
        rw [hrem] at hl1
        cases hl1
      · have hlA : lookupA svcA.store.items p.1 = some p.2 := by
          rw [← Bfr p.1 hin]
          exact hl1
        have hlsvc : lookupA svc.store.items p.1 = some p.2 := by
          rw [← Afr p.1 hnt]
          exact hlA
        have hub : setOriginB svc.reg p.2.tag_id = false := by
          cases hb : setOriginB svc.reg p.2.tag_id
          · rfl
          · exfalso
            have hsm0l : lookupA
                (svc.store.items.filter (fun p => setOriginB svc.reg p.2.tag_id)) p.1 =
                some p.2 :=
              lookupA_filter_of_true _ hlsvc hb
            have hfr := (ulsPhase1_frame p.1 target svc
              (svc.store.items.filter (fun p => setOriginB svc.reg p.2.tag_id))
              { updated := 0, removed := 0, created := 0 } hnt).2
            rw [h1] at hfr
            have hfr' : lookupA sm1 p.1 = some p.2 := hfr.trans hsm0l
            exact hin ((lookupA_isSome_iff _ _).mp (by rw [hfr']; rfl))
        have hid_lt : p.2.tag_id < svc.reg.next_id := hidb _ _ hlsvc
        have hdec : get_tag svc1.reg p.2.tag_id = get_tag svc.reg p.2.tag_id ∨
            get_tag svc1.reg p.2.tag_id = none := by
          rcases Andec p.2.tag_id hid_lt with hA | hA
          · rcases Bndec p.2.tag_id (lt_of_lt_of_le hid_lt Amon) with hB | hB
            · exact Or.inl (hB.trans hA)
            · exact Or.inr hB
          · rcases Bndec p.2.tag_id (lt_of_lt_of_le hid_lt Amon) with hB | hB
            · exact Or.inr (hB.trans hA)
            · exact Or.inr hB
        have hfalse : setOriginB svc1.reg p.2.tag_id = false := by
          unfold setOriginB at hub ⊢
          rcases hdec with hD | hD
          · rw [hD]
            exact hub
          · rw [hD]
        rw [hpq] at hfalse
        cases hfalse
    show update_lpm_store svc1 target = _
    unfold update_lpm_store
    rw [run2_phase1 target svc1 _ _ htknd hstep2]
    simp only
    rw [foldl_eraseA_nil target _
      (hnd1.sublist ((List.filter_sublist _).map Prod.fst)) hsub2]
    rfl

/-! Concrete inputs for the idempotence theorem: an empty v4 store with a
fresh registry, reconciled against a one-entry target set tagged with the
set extension. -/

def wCidr : NormalizedCidr := ⟨IpNet.v4 0 8, by decide⟩

def wEntry : Entry :=
  { creation := 0, cidr := wCidr, tag := some ".couic", expiration := 0 }

def wTarget : List (NormalizedCidr × Entry) := [(wCidr, wEntry)]

def wSvc : SvcState :=
  { store := { isV4 := true, maxEntries := 16, items := [], kernel := [] },
    reg := newRegistry }

def wSvc1 : SvcState := (update_lpm_store wSvc wTarget).2

theorem reconcile_idempotent_witness :
    update_lpm_store wSvc1 wTarget =
      (.ok { updated := 0, removed := 0, created := 0 }, wSvc1) :=
  reconcile_idempotent wSvc wTarget { updated := 0, removed := 0, created := 1 } wSvc1
    rfl
    (fun tk ent hm => by
      have h := List.mem_singleton.mp hm
      injection h with h1 h2
      subst h2
      decide)
    (by decide)
    (by show (keysOf wSvc.store.items).Nodup; decide)
    regWF_new
    (by intro k e h; simp [wSvc, lookupA] at h)
    (fun id => Nat.zero_le _)
    (fun p hp => nomatch hp)
